import Mathlib

/-!
Verification development for the UVC gadget function module
(`src/function/uvc.rs`) of the `usb-gadget` repository.

The module is embedded shallowly:

* `Frame`, `registerOps` — the data model and the exact sequence of
  filesystem calls (`create_dir`, `write`, `symlink`) that
  `UvcFunction::register` issues through its scoped directory handle.
* `UvcBuilder.fps` — a relational model of
  `(10000000.0 / fps as f64) as u32`: the IEEE double division is
  characterised by its round-to-nearest properties over `ℚ`, and the
  Rust float-to-int cast is the saturating truncation.
* `Uvc.get_v4l_device` — the device resolver as written (it resolves a
  candidate sysfs path, prints it, and returns `Ok(())`).
* `Fs`, `walk_and_delete`, `remove_handler` — a small filesystem state
  (a list of path/node entries) together with the teardown walk, with
  recursion depth made explicit through a fuel parameter.

Machine integers (`u32`) are embedded as `Nat` with explicit `% 2 ^ 32`
where wrap-around matters (release-profile semantics); fallible calls
return `Option`/`Except`.
-/

set_option autoImplicit false

/-- One supported video resolution/format/frame-rate set (`struct Frame`).
`u32` fields are embedded as `Nat` (valid values are `< 2 ^ 32`). -/
structure Frame where
  format : String
  name : String
  width : Nat
  height : Nat
  frame_intervals : List Nat
deriving DecidableEq

/-- `u32` multiplication with wrap-around (release-profile) semantics. -/
def mul32 (a b : Nat) : Nat := a * b % 4294967296

/-- `add_unix_line_ending`: append a single `'\n'`. -/
def add_unix_line_ending (s : String) : String := s ++ "\n"

/-- `frame_dir`: `streaming/<format>/<name>` (line 88 of the source). -/
def Frame.dir (f : Frame) : List String := ["streaming", f.format, f.name]

/-- `frame_path`: `streaming/<format>/<name>/<height>p` (line 89). -/
def Frame.path (f : Frame) : List String :=
  f.dir ++ [Nat.repr f.height ++ "p"]

/-- A filesystem call issued by `UvcFunction::register` through the scoped
directory handle. Paths are relative to the function directory and split
into components. -/
inductive FsOp where
  | createDir (p : List String)
  | write (p : List String) (content : String)
  | symlink (target : List String) (link : List String)
deriving DecidableEq

/-- Is this operation a symlink creation? -/
def FsOp.isLink : FsOp → Bool
  | .symlink _ _ => true
  | _ => false

/-- The target/link pair of a symlink operation. -/
def FsOp.linkOf : FsOp → Option (List String × List String)
  | .symlink t l => some (t, l)
  | _ => none

/-- The four property writes performed for one frame (lines 91–114):
`wWidth`, `wHeight`, `dwMaxVideoFrameBufferSize` (computed with `u32`
arithmetic, hence modulo `2 ^ 32`), and `dwFrameInterval`. -/
def frameOps (f : Frame) : List FsOp :=
  [ .write (f.path ++ ["wWidth"]) (add_unix_line_ending (Nat.repr f.width)),
    .write (f.path ++ ["wHeight"]) (add_unix_line_ending (Nat.repr f.height)),
    .write (f.path ++ ["dwMaxVideoFrameBufferSize"])
      (add_unix_line_ending (Nat.repr (mul32 (mul32 f.width f.height) 2))),
    .write (f.path ++ ["dwFrameInterval"])
      (add_unix_line_ending
        (String.intercalate "\n" (f.frame_intervals.map Nat.repr))) ]

/-- The pending symlink recorded for one frame (line 116): target is the
frame directory, the link lives under `streaming/header/h`. -/
def frameLink (f : Frame) : List String × List String :=
  (f.dir, ["streaming", "header", "h", f.name])

/-- The three streaming class links (lines 119–121). -/
def streamingClassLinks : List (List String × List String) :=
  [ (["streaming", "header", "h"], ["streaming", "class", "fs", "h"]),
    (["streaming", "header", "h"], ["streaming", "class", "hs", "h"]),
    (["streaming", "header", "h"], ["streaming", "class", "ss", "h"]) ]

/-- The two control class links (lines 124–126). -/
def controlClassLinks : List (List String × List String) :=
  [ (["control", "header", "h"], ["control", "class", "fs", "h"]),
    (["control", "header", "h"], ["control", "class", "ss", "h"]) ]

/-- The `sym_links` vector in the order the code pushes entries: one per
frame in addition order, then the streaming class links `fs`/`hs`/`ss`,
then the control class links `fs`/`ss`. -/
def pendingLinks (frames : List Frame) : List (List String × List String) :=
  frames.map frameLink ++ streamingClassLinks ++ controlClassLinks

/-- The complete sequence of filesystem calls executed by a run of
`UvcFunction::register` (lines 78–136), in program order: the directory
and property-file operations happen during the body, and every pending
symlink is created by the final loop (lines 130–134). -/
def registerOps (frames : List Frame) : List FsOp :=
  [FsOp.createDir ["streaming", "header", "h"]]
    ++ [FsOp.write ["streaming_interval"] "1\n",
        FsOp.write ["streaming_maxpacket"] "3072\n",
        FsOp.write ["streaming_maxburst"] "1\n"]
    ++ frames.flatMap frameOps
    ++ [FsOp.createDir ["control", "header", "h"]]
    ++ (pendingLinks frames).map (fun tl => FsOp.symlink tl.1 tl.2)

/-- The first content written to `streaming/<format>/<name>/<height>p/`
`dwMaxVideoFrameBufferSize` during a register run, if any. -/
def dwMaxContent (frames : List Frame) (f : Frame) : Option String :=
  ((registerOps frames).filterMap fun op =>
    match op with
    | .write p c =>
        if p = f.path ++ ["dwMaxVideoFrameBufferSize"] then some c else none
    | _ => none).head?

/-! ### The `fps` helper

`UvcBuilder::fps` computes `10000000.0 / fps as f64` and casts the result
with `as u32` (lines 36–39).  IEEE binary64 values are not reproduced
bit-for-bit; instead the division result is characterised relationally:

* for `fps = 0` the IEEE quotient is `+∞`;
* for `fps ≠ 0` (with `fps < 2 ^ 32 ≤ 2 ^ 53`, so `fps as f64` is exact)
  the quotient is the representable double nearest to the exact rational
  `10000000 / fps`.  Two consequences of round-to-nearest suffice for the
  proofs and are taken as the characterisation: the relative-error bound
  `|q - x| ≤ |x| / 2 ^ 53` (half an ulp of a binary64 number in the
  relevant range), and that `q` is at least as close to `x` as any
  integer of magnitude at most `2 ^ 53` (all such integers are
  representable doubles). -/

/-- An IEEE binary64 value as produced by `10000000.0 / fps as f64`:
either a finite value (represented by its exact rational) or `+∞`. -/
inductive F64 where
  | val (q : ℚ)
  | posInf
deriving DecidableEq

/-- Round-to-nearest characterisation of the finite IEEE quotient `q` of
the exact rational `x`. -/
def RoundsTo (x q : ℚ) : Prop :=
  |q - x| ≤ |x| / 2 ^ 53 ∧
    ∀ m : ℤ, |m| ≤ 2 ^ 53 → |q - x| ≤ |(m : ℚ) - x|

/-- The IEEE binary64 division `10000000.0 / (fps as f64)`. -/
def f64DivTenMillion (fps : Nat) (r : F64) : Prop :=
  if fps = 0 then r = .posInf
  else ∃ q : ℚ, r = .val q ∧ RoundsTo ((10000000 : ℚ) / (fps : ℚ)) q

/-- The Rust `as u32` cast on a float: truncation toward zero, saturating
at the bounds; `+∞` saturates to `u32::MAX`. -/
def rustAsU32 : F64 → Nat
  | .posInf => 4294967295
  | .val q => if q ≤ 0 then 0 else min (Int.toNat ⌊q⌋) 4294967295

/-- `UvcBuilder::fps` as a relation between the argument and the returned
`u32` (relational because the intermediate double is characterised, not
computed). -/
def UvcBuilder.fps (fps : Nat) (result : Nat) : Prop :=
  ∃ r : F64, f64DivTenMillion fps r ∧ result = rustAsU32 r

/-! ### The device resolver

`Uvc::get_v4l_device` (lines 153–207).  The function derives the gadget
name from the function directory, lists
`/sys/module/libcomposite/drivers/gadget:configfs-gadget.<name>`, selects
the first `gadget.*` entry, joins `video4linux` onto it, **prints** that
candidate path and returns `Ok(())`.  Everything after the `println!` is
commented out in the source.  The sysfs listing is an input: `none` models
a failing `fs::read_dir` (directory absent), `some es` the entry names in
directory order. -/

/-- Rust's `str::starts_with`: the needle's characters lead the string
(character-list prefix test, kept kernel-computable). -/
def startsWithStr (s pre : String) : Bool :=
  pre.toList.isPrefixOf s.toList

/-- Errors surfaced by the resolver model. -/
inductive ResolverErr where
  | invalidData
  | ioError
  | notBound
deriving DecidableEq

/-- `Path::parent`: `none` at the root, otherwise drop the last
component (paths are absolute, `[]` is `/`). -/
def parentOf : List String → Option (List String)
  | [] => none
  | p => some p.dropLast

/-- The gadget name: two `parent()` steps up from the function directory,
then `file_name()` (lines 154–159). -/
def gadgetNameOf (d : List String) : Option String :=
  ((parentOf d).bind parentOf).bind List.getLast?

/-- The sysfs directory listed by the resolver (line 160), as path
components. -/
def libcompositeDriverPath (name : String) : List String :=
  ["sys", "module", "libcomposite", "drivers",
    "gadget:configfs-gadget." ++ name]

/-- The candidate `v4l_path` the code computes and prints (lines
162–170): the first `gadget.*`-prefixed entry joined with
`video4linux`. -/
def v4lCandidate (name : String) (entries : List String) :
    Option (List String) :=
  ((entries.filter fun e => startsWithStr e "gadget.").head?).map
    fun e => libcompositeDriverPath name ++ [e, "video4linux"]

/-- `Uvc::get_v4l_device` as written: the candidate path is computed and
printed, and the function returns `Ok(())` whenever the sysfs listing
succeeded — regardless of whether a `gadget.*` entry (or any `video*`
node) exists. -/
def Uvc.get_v4l_device (d : List String)
    (listing : Option (List String)) : Except ResolverErr Unit :=
  match gadgetNameOf d with
  | none => .error .invalidData
  | some name =>
      match listing with
      | none => .error .ioError
      | some es =>
          let _printed := v4lCandidate name es
          .ok ()

/-- Modelled from the spec: the Device Resolver protocol of §4.3, whose
steps 4–5 (listing `video4linux`, selecting the first `video*` directory
entry, and mapping it onto `/dev/<name>`) are absent from the source.
`sysfs` maps a directory path to its entries (name, is-directory), `none`
when the directory does not exist. -/
def Uvc.get_v4l_device_spec (d : List String)
    (sysfs : List String → Option (List (String × Bool))) :
    Except ResolverErr (List String) :=
  match gadgetNameOf d with
  | none => .error .invalidData
  | some name =>
      match sysfs (libcompositeDriverPath name) with
      | none => .error .notBound
      | some es =>
          match (es.filter fun e => startsWithStr e.1 "gadget.").head? with
          | none => .error .notBound
          | some g =>
              match sysfs (libcompositeDriverPath name ++
                  [g.1, "video4linux"]) with
              | none => .error .notBound
              | some ves =>
                  match (ves.filter fun e =>
                      e.2 && startsWithStr e.1 "video").head? with
                  | none => .error .notBound
                  | some v => .ok ["dev", v.1]

/-! ### Filesystem states

A filesystem state is a list of `(path, node)` entries, paths relative to
the function directory and split into components.  The list may contain
repeated entries for the same directory path (each `create_dir_all`-style
operation appends the directories it ensures); the reading operations
below give such a list set semantics: `kindAt` takes the most recent
entry, `childNames` deduplicates, and removal drops every entry of a
path.  Directory-entry order is determinised as entry-creation order. -/

/-- A filesystem node: directory, regular file, or symbolic link (the
target is stored as recorded; targets in this development are never
themselves symlinks, so link resolution is modelled as a single hop). -/
inductive Node where
  | dir
  | file (content : String)
  | symlink (target : List String)
deriving DecidableEq

/-- A filesystem state. -/
abbrev Fs := List (List String × Node)

/-- All nodes recorded at path `p`, oldest first. -/
def entriesAt (fs : Fs) (p : List String) : List Node :=
  fs.filterMap fun e => if e.1 = p then some e.2 else none

/-- The current node at path `p` (the most recent entry), if any. -/
def kindAt (fs : Fs) (p : List String) : Option Node :=
  (entriesAt fs p).getLast?

/-- Does any entry exist at path `p`? (`Path::is_symlink`-style presence:
the path itself, links not followed.) -/
def hasPath (fs : Fs) (p : List String) : Bool :=
  fs.any fun e => e.1 == p

/-- The names of the directory entries of `p` (`fs::read_dir`), in entry
order, deduplicated. -/
def childNames (fs : Fs) (p : List String) : List String :=
  (fs.filterMap fun e =>
    if e.1 ≠ [] ∧ e.1.dropLast = p then e.1.getLast? else none).dedup

/-- `Path::exists`: follows a symlink to its target. -/
def existsAt (fs : Fs) (p : List String) : Bool :=
  match kindAt fs p with
  | none => false
  | some (.symlink t) => hasPath fs t
  | some _ => true

/-- `Path::is_symlink`: does not follow the link. -/
def isSymlinkAt (fs : Fs) (p : List String) : Bool :=
  match kindAt fs p with
  | some (.symlink _) => true
  | _ => false

/-- `Path::is_dir`: follows a symlink to its target. -/
def isDirAt (fs : Fs) (p : List String) : Bool :=
  match kindAt fs p with
  | some .dir => true
  | some (.symlink t) => kindAt fs t == some Node.dir
  | _ => false

/-- Is `p` itself a directory (links not followed)? -/
def isRealDir (fs : Fs) (p : List String) : Bool :=
  kindAt fs p == some Node.dir

/-- Remove every entry recorded at path `p` (`fs::remove_file` on a
symlink; also the effect of a successful `fs::remove_dir`). -/
def removeAt (fs : Fs) (p : List String) : Fs :=
  fs.filter fun e => !(e.1 == p)

/-- `let _ = fs::remove_dir(path)`: removal succeeds only on an existing,
empty directory that the kernel lets the caller remove — `rm p = true`
models the latter (configfs refuses `rmdir` of kernel-created group
directories).  Failures are swallowed, leaving the state unchanged. -/
def removeDirAttempt (fs : Fs) (p : List String)
    (rm : List String → Bool) : Fs :=
  if isRealDir fs p && (childNames fs p).isEmpty && rm p then
    removeAt fs p
  else fs

/-- The entries an operation appends to the state when it succeeds. -/
def prefixDirs (p : List String) : Fs :=
  (List.range p.length).map fun i => (p.take (i + 1), Node.dir)

/-- Modelled from the spec: the scoped directory handle's `create_dir`
and `write` (`FunctionDir` lives in `util.rs`, which is not part of the
sources; §4.1 creates `streaming/header/h` and writes frame files in one
step each, so both ensure missing ancestor directories).  `write`
overwrites by appending (reads take the most recent entry); `symlink`
fails if the link path already exists (`EEXIST`). -/
def applyOp (fs : Fs) : FsOp → Option Fs
  | .createDir p => some (fs ++ prefixDirs p)
  | .write p c => some (fs ++ prefixDirs p.dropLast ++ [(p, Node.file c)])
  | .symlink t l =>
      if hasPath fs l then none else some (fs ++ [(l, Node.symlink t)])

/-- The entries a successful operation appends. -/
def opEntries : FsOp → Fs
  | .createDir p => prefixDirs p
  | .write p c => prefixDirs p.dropLast ++ [(p, Node.file c)]
  | .symlink t l => [(l, Node.symlink t)]

/-- Execute a sequence of filesystem calls with the `?`-operator's early
return: the first failing call (an external failure injected by the
oracle `fail`, or an intrinsic one from `applyOp`) aborts the run,
returning the index of the failing call together with the state at that
moment — nothing already created is rolled back. -/
def runOps (fail : Nat → Bool) : Nat → Fs → List FsOp →
    Except (Nat × Fs) Fs
  | _, fs, [] => .ok fs
  | i, fs, op :: ops =>
      if fail i then .error (i, fs)
      else
        match applyOp fs op with
        | none => .error (i, fs)
        | some fs' => runOps fail (i + 1) fs' ops

/-- Modelled from the spec: the kernel-created configfs skeleton of a
fresh UVC function directory that §4.1 presumes (the `control` and
`streaming` trees with their `class` speed directories and `header`
groups), which `register` populates. -/
def skeletonFs : Fs :=
  [ (["control"], Node.dir),
    (["control", "class"], Node.dir),
    (["control", "class", "fs"], Node.dir),
    (["control", "class", "ss"], Node.dir),
    (["control", "header"], Node.dir),
    (["streaming"], Node.dir),
    (["streaming", "class"], Node.dir),
    (["streaming", "class", "fs"], Node.dir),
    (["streaming", "class", "hs"], Node.dir),
    (["streaming", "class", "ss"], Node.dir),
    (["streaming", "header"], Node.dir) ]

/-- The filesystem state after a successful activation, in closed form:
the skeleton plus the entries appended by each call of `registerOps`. -/
def activationFs (frames : List Frame) : Fs :=
  skeletonFs ++ (registerOps frames).flatMap opEntries

mutual

/-- `walk_and_delete` (lines 210–222): list the directory, delete every
symlink whose target exists, recurse into subdirectories and then attempt
(best effort) to remove them.  Recursion depth is bounded by the explicit
`fuel`; `none` models a propagated error (`fs::read_dir` on a missing or
non-directory path) or exhausted fuel. -/
def walk_and_delete (fuel : Nat) (fs : Fs) (dir : List String)
    (rm : List String → Bool) : Option Fs :=
  match fuel with
  | 0 => none
  | fuel + 1 =>
      if isRealDir fs dir then
        walkEntries fuel fs dir rm (childNames fs dir)
      else none
termination_by (fuel, 0)

/-- The `for path in fs::read_dir(dir)?` loop body of `walk_and_delete`,
processing the listed entry names in order. -/
def walkEntries (fuel : Nat) (fs : Fs) (dir : List String)
    (rm : List String → Bool) (names : List String) : Option Fs :=
  match names with
  | [] => some fs
  | n :: ns =>
      if existsAt fs (dir ++ [n]) && isSymlinkAt fs (dir ++ [n]) then
        walkEntries fuel (removeAt fs (dir ++ [n])) dir rm ns
      else if isDirAt fs (dir ++ [n]) then
        match walk_and_delete fuel fs (dir ++ [n]) rm with
        | none => none
        | some fs' =>
            walkEntries fuel (removeDirAttempt fs' (dir ++ [n]) rm) dir rm ns
      else walkEntries fuel fs dir rm ns
termination_by (fuel, names.length + 1)

end

/-- `remove_handler` (lines 224–233): the five ordered teardown walks,
each `?`-propagating its own failure. -/
def remove_handler (fs : Fs) (rm : List String → Bool) (fuel : Nat) :
    Option Fs := do
  let fs1 ← walk_and_delete fuel fs ["control", "class"] rm
  let fs2 ← walk_and_delete fuel fs1 ["streaming", "class"] rm
  let fs3 ← walk_and_delete fuel fs2 ["streaming", "header"] rm
  let fs4 ← walk_and_delete fuel fs3 ["streaming"] rm
  let fs5 ← walk_and_delete fuel fs4 ["control", "header"] rm
  some fs5

/-- Decidable equality for run results (used to evaluate concrete runs in
witnesses). -/
instance {ε α : Type} [DecidableEq ε] [DecidableEq α] :
    DecidableEq (Except ε α) := fun a b =>
  match a, b with
  | .ok x, .ok y =>
      if h : x = y then .isTrue (by rw [h])
      else .isFalse (by intro c; cases c; exact h rfl)
  | .error x, .error y =>
      if h : x = y then .isTrue (by rw [h])
      else .isFalse (by intro c; cases c; exact h rfl)
  | .ok _, .error _ => .isFalse (by intro c; cases c)
  | .error _, .ok _ => .isFalse (by intro c; cases c)

/-- `q` lies strictly below directory `p`. -/
def isUnder (p q : List String) : Prop :=
  q.take p.length = p ∧ p.length < q.length

instance (p q : List String) : Decidable (isUnder p q) := by
  unfold isUnder; infer_instance

/-- The frame used by the repository's own test (`tests/uvc.rs`), for
concrete witnesses. -/
def sampleFrame : Frame :=
  { format := "mjpeg", name := "mjpeg", width := 1920, height := 1080,
    frame_intervals := [666666] }

/-- Apply a prefix of operations, ignoring individual failures (the state
a partially failed run leaves behind). -/
def applyPrefix (fs : Fs) (ops : List FsOp) : Fs :=
  ops.foldl (fun s op => (applyOp s op).getD s) fs

/-- An upper bound on the length of every path in the state (controls the
recursion depth of the teardown walk). -/
def maxPathLen (fs : Fs) : Nat :=
  fs.foldr (fun e m => max e.1.length m) 0

/-- No symbolic link exists anywhere in the state. -/
def symlinkFree (fs : Fs) : Prop :=
  ∀ e ∈ fs, ∀ t, e.2 ≠ Node.symlink t

/-! ### Path and state lemmas -/

theorem isUnder_concat (p : List String) (n : String) :
    isUnder p (p ++ [n]) := by
  constructor
  · exact List.take_left p [n]
  · simp

theorem not_isUnder_of_length_le {p q : List String}
    (h : q.length ≤ p.length) : ¬ isUnder p q := by
  intro ⟨_, hlt⟩; omega

theorem isUnder_of_isUnder_concat {p : List String} {n : String}
    {q : List String} (h : isUnder (p ++ [n]) q) : isUnder p q := by
  obtain ⟨ht, hl⟩ := h
  simp at hl
  constructor
  · have : q.take p.length = (q.take (p.length + 1)).take p.length := by
      rw [List.take_take]; congr 1; omega
    rw [this, List.length_append, List.length_singleton] at *
    rw [ht]
    exact List.take_left p [n]
  · omega

theorem not_isUnder_concat_sibling (p : List String) (n s : String) :
    ¬ isUnder (p ++ [n]) (p ++ [s]) := by
  apply not_isUnder_of_length_le; simp

theorem entriesAt_append (l₁ l₂ : Fs) (p : List String) :
    entriesAt (l₁ ++ l₂) p = entriesAt l₁ p ++ entriesAt l₂ p := by
  simp [entriesAt]

theorem entriesAt_eq_nil_of_forall {fs : Fs} {p : List String}
    (h : ∀ e ∈ fs, e.1 ≠ p) : entriesAt fs p = [] := by
  simp only [entriesAt, List.filterMap_eq_nil_iff]
  intro e he
  simp [h e he]

theorem entriesAt_cons (e : List String × Node) (fs : Fs)
    (q : List String) :
    entriesAt (e :: fs) q =
      if e.1 = q then e.2 :: entriesAt fs q else entriesAt fs q := by
  by_cases h : e.1 = q <;> simp [entriesAt, h]

theorem mem_entriesAt {fs : Fs} {p : List String} {k : Node}
    (h : (p, k) ∈ fs) : k ∈ entriesAt fs p := by
  simp only [entriesAt, List.mem_filterMap]
  exact ⟨(p, k), h, by simp⟩

theorem exists_mem_of_entriesAt_ne_nil {fs : Fs} {p : List String}
    (h : entriesAt fs p ≠ []) : ∃ k, (p, k) ∈ fs := by
  obtain ⟨k, hk⟩ := List.exists_mem_of_ne_nil _ h
  simp only [entriesAt, List.mem_filterMap] at hk
  obtain ⟨⟨q, k'⟩, he, hek⟩ := hk
  by_cases hp : q = p
  · subst hp
    exact ⟨k', he⟩
  · simp [hp] at hek

theorem hasPath_eq_false_iff {fs : Fs} {p : List String} :
    hasPath fs p = false ↔ entriesAt fs p = [] := by
  constructor
  · intro h
    apply entriesAt_eq_nil_of_forall
    intro e he hep
    simp only [hasPath, List.any_eq_false] at h
    have := h e he
    simp [hep] at this
  · intro h
    cases hhp : hasPath fs p with
    | false => rfl
    | true =>
        simp only [hasPath, List.any_eq_true] at hhp
        obtain ⟨⟨q, k⟩, he, hep⟩ := hhp
        have hq : q = p := by simpa using hep
        subst hq
        have := mem_entriesAt he
        rw [h] at this
        simp at this

theorem hasPath_eq_true_iff {fs : Fs} {p : List String} :
    hasPath fs p = true ↔ entriesAt fs p ≠ [] := by
  constructor
  · intro h hnil
    rw [hasPath_eq_false_iff.mpr hnil] at h
    cases h
  · intro h
    cases hhp : hasPath fs p with
    | true => rfl
    | false => exact absurd (hasPath_eq_false_iff.mp hhp) h

theorem entriesAt_sublist {fs fs' : Fs} (h : fs'.Sublist fs)
    (p : List String) : (entriesAt fs' p).Sublist (entriesAt fs p) :=
  h.filterMap _

theorem removeAt_sublist (fs : Fs) (p : List String) :
    (removeAt fs p).Sublist fs := List.filter_sublist _

theorem removeAt_cons (e : List String × Node) (fs : Fs)
    (p : List String) :
    removeAt (e :: fs) p =
      if e.1 = p then removeAt fs p else e :: removeAt fs p := by
  by_cases h : e.1 = p <;> simp [removeAt, List.filter_cons, h]

theorem entriesAt_removeAt (fs : Fs) (p q : List String) :
    entriesAt (removeAt fs p) q = if q = p then [] else entriesAt fs q := by
  induction fs with
  | nil => by_cases hq : q = p <;> simp [entriesAt, removeAt, hq]
  | cons e fs ih =>
      rw [removeAt_cons]
      by_cases he : e.1 = p
      · rw [if_pos he, ih]
        by_cases hq : q = p
        · simp [hq]
        · rw [if_neg hq, if_neg hq, entriesAt_cons,
            if_neg (fun c : e.1 = q => hq (by rw [← c, he]))]
      · rw [if_neg he, entriesAt_cons]
        by_cases hq : q = p
        · rw [if_pos hq, if_neg (fun c : e.1 = q => he (c.trans hq)), ih,
            if_pos hq]
        · rw [if_neg hq, entriesAt_cons, ih, if_neg hq]

theorem removeDirAttempt_sublist (fs : Fs) (p : List String)
    (rm : List String → Bool) : (removeDirAttempt fs p rm).Sublist fs := by
  unfold removeDirAttempt
  split
  · exact removeAt_sublist fs p
  · exact List.Sublist.refl fs

theorem entriesAt_removeDirAttempt_ne {fs : Fs} {p : List String}
    {rm : List String → Bool} {q : List String} (h : q ≠ p) :
    entriesAt (removeDirAttempt fs p rm) q = entriesAt fs q := by
  unfold removeDirAttempt
  split
  · rw [entriesAt_removeAt, if_neg h]
  · rfl

theorem removeDirAttempt_of_rm_false {fs : Fs} {p : List String}
    {rm : List String → Bool} (h : rm p = false) :
    removeDirAttempt fs p rm = fs := by
  unfold removeDirAttempt
  rw [h]
  simp

theorem removeDirAttempt_of_not_dir {fs : Fs} {p : List String}
    {rm : List String → Bool} (h : isRealDir fs p = false) :
    removeDirAttempt fs p rm = fs := by
  unfold removeDirAttempt
  rw [h]
  simp

theorem mem_childNames {fs : Fs} {p : List String} {n : String}
    (h : entriesAt fs (p ++ [n]) ≠ []) : n ∈ childNames fs p := by
  obtain ⟨k, hk⟩ := exists_mem_of_entriesAt_ne_nil h
  unfold childNames
  rw [List.mem_dedup]
  simp only [List.mem_filterMap]
  refine ⟨(p ++ [n], k), hk, ?_⟩
  rw [if_pos ⟨by simp, List.dropLast_concat⟩]
  exact List.getLast?_concat p

/-! ### Trace lemmas for the register run -/

theorem filter_isLink_frameOps (f : Frame) :
    (frameOps f).filter FsOp.isLink = [] := rfl

theorem filter_notLink_frameOps (f : Frame) :
    (frameOps f).filter (fun op => !op.isLink) = frameOps f := rfl

theorem filterMap_linkOf_frameOps (f : Frame) :
    (frameOps f).filterMap FsOp.linkOf = [] := rfl

theorem filter_isLink_flatMap (frames : List Frame) :
    (frames.flatMap frameOps).filter FsOp.isLink = [] := by
  induction frames with
  | nil => rfl
  | cons f fs ih =>
      simp only [List.flatMap_cons, List.filter_append, ih,
        filter_isLink_frameOps, List.nil_append]

theorem filter_notLink_flatMap (frames : List Frame) :
    (frames.flatMap frameOps).filter (fun op => !op.isLink) =
      frames.flatMap frameOps := by
  induction frames with
  | nil => rfl
  | cons f fs ih =>
      simp only [List.flatMap_cons, List.filter_append, ih,
        filter_notLink_frameOps]

theorem filterMap_linkOf_flatMap (frames : List Frame) :
    (frames.flatMap frameOps).filterMap FsOp.linkOf = [] := by
  induction frames with
  | nil => rfl
  | cons f fs ih =>
      simp only [List.flatMap_cons, List.filterMap_append, ih,
        filterMap_linkOf_frameOps, List.nil_append]

theorem filter_isLink_mapSymlink (l : List (List String × List String)) :
    (l.map fun tl => FsOp.symlink tl.1 tl.2).filter FsOp.isLink =
      l.map fun tl => FsOp.symlink tl.1 tl.2 := by
  induction l with
  | nil => rfl
  | cons tl l ih => simp [FsOp.isLink, ih]

theorem filter_notLink_mapSymlink (l : List (List String × List String)) :
    (l.map fun tl => FsOp.symlink tl.1 tl.2).filter
      (fun op => !op.isLink) = [] := by
  induction l with
  | nil => rfl
  | cons tl l ih =>
      rw [List.map_cons, List.filter_cons, if_neg (by simp [FsOp.isLink])]
      exact ih

theorem filterMap_linkOf_mapSymlink (l : List (List String × List String)) :
    (l.map fun tl => FsOp.symlink tl.1 tl.2).filterMap FsOp.linkOf = l := by
  induction l with
  | nil => rfl
  | cons tl l ih => simp [FsOp.linkOf, ih]

theorem filter_isLink_registerOps (frames : List Frame) :
    (registerOps frames).filter FsOp.isLink =
      (pendingLinks frames).map fun tl => FsOp.symlink tl.1 tl.2 := by
  unfold registerOps
  simp only [List.filter_append, filter_isLink_flatMap,
    filter_isLink_mapSymlink]
  simp [List.filter_cons, FsOp.isLink]

theorem filter_notLink_registerOps (frames : List Frame) :
    (registerOps frames).filter (fun op => !op.isLink) =
      [FsOp.createDir ["streaming", "header", "h"]]
        ++ [FsOp.write ["streaming_interval"] "1\n",
            FsOp.write ["streaming_maxpacket"] "3072\n",
            FsOp.write ["streaming_maxburst"] "1\n"]
        ++ frames.flatMap frameOps
        ++ [FsOp.createDir ["control", "header", "h"]] := by
  unfold registerOps
  simp only [List.filter_append, filter_notLink_flatMap,
    filter_notLink_mapSymlink]
  simp [List.filter_cons, FsOp.isLink]

theorem linkOf_registerOps (frames : List Frame) :
    (registerOps frames).filterMap FsOp.linkOf = pendingLinks frames := by
  unfold registerOps
  simp only [List.filterMap_append, filterMap_linkOf_flatMap,
    filterMap_linkOf_mapSymlink]
  simp [List.filterMap_cons, FsOp.linkOf, pendingLinks]

/-! ### Rounding analysis for `UvcBuilder::fps`

`10000000 < 2 ^ 53`, so the correctly rounded double quotient can never
cross an integer boundary: when `fps` divides `10 ^ 7` the quotient is an
integer below `2 ^ 53` and hence exact, and otherwise the exact value
keeps a distance of at least `1 / fps` from every integer while the
rounding error stays strictly below `1 / fps`. -/

theorem roundsTo_floor {f : Nat} (hf : 1 ≤ f) {q : ℚ}
    (h : RoundsTo ((10000000 : ℚ) / (f : ℚ)) q) :
    0 < q ∧ ⌊q⌋ = ((10000000 / f : Nat) : ℤ) := by
  obtain ⟨hulp, hnear⟩ := h
  have hfQ : (0 : ℚ) < (f : ℚ) := by
    have : (1 : ℚ) ≤ (f : ℚ) := by exact_mod_cast hf
    linarith
  set x : ℚ := (10000000 : ℚ) / (f : ℚ) with hxdef
  have hx_pos : 0 < x := by positivity
  by_cases hdvd : f ∣ 10000000
  · -- exact division: the quotient is an integer `< 2 ^ 53`, hence `q = x`
    have hmul : (10000000 / f) * f = 10000000 := Nat.div_mul_cancel hdvd
    have hxn : x = ((10000000 / f : Nat) : ℚ) := by
      rw [hxdef, eq_comm, eq_div_iff (ne_of_gt hfQ)]
      exact_mod_cast hmul
    have hn0_le : (10000000 / f : Nat) ≤ 10000000 := Nat.div_le_self _ _
    have hm : |((10000000 / f : Nat) : ℤ)| ≤ 2 ^ 53 := by
      rw [abs_of_nonneg (by positivity)]
      have : ((10000000 / f : Nat) : ℤ) ≤ 10000000 := by exact_mod_cast hn0_le
      omega
    have hnq := hnear ((10000000 / f : Nat) : ℤ) hm
    rw [Int.cast_natCast, ← hxn] at hnq
    have hq_eq : q = x := by
      have h0 : |q - x| ≤ 0 := by simpa using hnq
      have := abs_eq_zero.mp (le_antisymm h0 (abs_nonneg _))
      linarith
    refine ⟨by rw [hq_eq]; exact hx_pos, ?_⟩
    rw [hq_eq, hxn]
    exact Int.floor_natCast _
  · -- inexact division: `x` is at distance `≥ 1 / f` from every integer
    have hr_pos : 1 ≤ 10000000 % f := by
      rcases Nat.eq_zero_or_pos (10000000 % f) with h0 | h1
      · exact absurd (Nat.dvd_of_mod_eq_zero h0) hdvd
      · exact h1
    have hr_lt : 10000000 % f < f := Nat.mod_lt _ (by omega)
    have hsum : (10000000 : ℚ) =
        (f : ℚ) * ((10000000 / f : Nat) : ℚ) + ((10000000 % f : Nat) : ℚ) := by
      exact_mod_cast (Nat.div_add_mod 10000000 f).symm
    have hxeq : x = ((10000000 / f : Nat) : ℚ) +
        ((10000000 % f : Nat) : ℚ) / (f : ℚ) := by
      rw [hxdef, hsum]
      field_simp
      ring
    have hlow : ((10000000 / f : Nat) : ℚ) + 1 / (f : ℚ) ≤ x := by
      rw [hxeq]
      have h1 : (1 : ℚ) ≤ ((10000000 % f : Nat) : ℚ) := by exact_mod_cast hr_pos
      have h2 : 1 / (f : ℚ) ≤ ((10000000 % f : Nat) : ℚ) / (f : ℚ) := by
        gcongr
      linarith
    have hhigh : x + 1 / (f : ℚ) ≤ ((10000000 / f : Nat) : ℚ) + 1 := by
      rw [hxeq]
      have hrf : ((10000000 % f : Nat) : ℚ) + 1 ≤ (f : ℚ) := by
        exact_mod_cast hr_lt
      have h3 : (((10000000 % f : Nat) : ℚ) + 1) / (f : ℚ) ≤ 1 := by
        rw [div_le_one hfQ]; exact hrf
      have hsplit : (((10000000 % f : Nat) : ℚ) + 1) / (f : ℚ) =
          ((10000000 % f : Nat) : ℚ) / (f : ℚ) + 1 / (f : ℚ) := by
        ring
      rw [hsplit] at h3
      linarith
    have herr : |q - x| < 1 / (f : ℚ) := by
      have h1 : |x| / 2 ^ 53 < 1 / (f : ℚ) := by
        rw [abs_of_pos hx_pos, hxdef]
        rw [div_div, div_lt_div_iff₀ (by positivity) hfQ]
        nlinarith [hfQ]
      exact lt_of_le_of_lt hulp h1
    have habs := abs_lt.mp herr
    have hq_lb : ((10000000 / f : Nat) : ℚ) < q := by
      have := habs.1
      linarith
    have hq_ub : q < ((10000000 / f : Nat) : ℚ) + 1 := by
      have := habs.2
      linarith
    refine ⟨?_, ?_⟩
    · have : (0 : ℚ) ≤ ((10000000 / f : Nat) : ℚ) := by positivity
      linarith
    · rw [Int.floor_eq_iff]
      refine ⟨?_, ?_⟩
      · rw [Int.cast_natCast]
        linarith
      · rw [Int.cast_natCast]
        linarith

theorem fps_result_of_pos {f n : Nat} (hf : 1 ≤ f)
    (h : UvcBuilder.fps f n) : n = 10000000 / f := by
  obtain ⟨r, hdiv, hcast⟩ := h
  unfold f64DivTenMillion at hdiv
  rw [if_neg (by omega)] at hdiv
  obtain ⟨q, rfl, hround⟩ := hdiv
  obtain ⟨hq_pos, hfloor⟩ := roundsTo_floor hf hround
  rw [hcast]
  simp only [rustAsU32]
  rw [if_neg (not_le.mpr hq_pos), hfloor]
  have : (10000000 / f) ≤ 10000000 := Nat.div_le_self _ _
  simp only [Int.toNat_natCast]
  omega

/-! ### Running the register trace -/

theorem hasPath_append (l₁ l₂ : Fs) (p : List String) :
    hasPath (l₁ ++ l₂) p = (hasPath l₁ p || hasPath l₂ p) := by
  simp [hasPath, List.any_append]

theorem applyOp_nonlink_eq {fs : Fs} {op : FsOp} (h : op.isLink = false) :
    applyOp fs op = some (fs ++ opEntries op) := by
  cases op with
  | createDir p => simp [applyOp, opEntries]
  | write p c => simp [applyOp, opEntries]
  | symlink t l => simp [FsOp.isLink] at h

theorem runOps_noFail_nonlinks (i : Nat) (fs : Fs) (l₁ l₂ : List FsOp)
    (h : ∀ op ∈ l₁, op.isLink = false) :
    runOps (fun _ => false) i fs (l₁ ++ l₂) =
      runOps (fun _ => false) (i + l₁.length) (fs ++ l₁.flatMap opEntries)
        l₂ := by
  induction l₁ generalizing i fs with
  | nil => simp
  | cons op l₁ ih =>
      have hop := h op (by simp)
      rw [List.cons_append]
      simp only [runOps, Bool.false_eq_true, if_false,
        applyOp_nonlink_eq hop]
      rw [ih (i + 1) (fs ++ opEntries op) (fun o ho => h o (by simp [ho]))]
      rw [List.flatMap_cons, List.length_cons, ← List.append_assoc]
      congr 1
      omega

theorem runOps_noFail_links (i : Nat) (fs : Fs)
    (pend : List (List String × List String))
    (hnov : ∀ tl ∈ pend, hasPath fs tl.2 = false)
    (hnodup : (pend.map Prod.snd).Nodup) :
    runOps (fun _ => false) i fs
        (pend.map fun tl => FsOp.symlink tl.1 tl.2) =
      .ok (fs ++ pend.map fun tl => (tl.2, Node.symlink tl.1)) := by
  induction pend generalizing i fs with
  | nil => simp [runOps]
  | cons tl pend ih =>
      have h0 := hnov tl (by simp)
      simp only [List.map_cons, runOps, Bool.false_eq_true, if_false,
        applyOp, h0, Bool.false_eq_true]
      rw [ih (i + 1) (fs ++ [(tl.2, Node.symlink tl.1)]) ?_ ?_]
      · rw [List.append_assoc]
        rfl
      · intro tl' h'
        rw [hasPath_append, hnov tl' (by simp [h']), Bool.false_or]
        have hne : tl'.2 ≠ tl.2 := by
          simp only [List.map_cons, List.nodup_cons] at hnodup
          intro c
          exact hnodup.1 (c ▸ List.mem_map_of_mem Prod.snd h')
        simp only [hasPath, List.any_cons, List.any_nil, Bool.or_false,
          beq_eq_false_iff_ne, ne_eq]
        exact fun c => hne c.symm
      · simp only [List.map_cons, List.nodup_cons] at hnodup
        exact hnodup.2

theorem flatMap_opEntries_mapSymlink
    (l : List (List String × List String)) :
    (l.map fun tl => FsOp.symlink tl.1 tl.2).flatMap opEntries =
      l.map fun tl => (tl.2, Node.symlink tl.1) := by
  induction l with
  | nil => rfl
  | cons tl l ih => simp [opEntries, ih]

/-! ### Shape of the entries appended for one frame -/

theorem frameChunk_shape {f : Frame} {e : List String × Node}
    (h : e ∈ (frameOps f).flatMap opEntries) :
    (e.1 = ["streaming"] ∧ e.2 = Node.dir) ∨
      ∃ rest, e.1 = "streaming" :: f.format :: rest := by
  simp only [frameOps, opEntries, prefixDirs, Frame.path, Frame.dir,
    List.dropLast_concat, List.flatMap_cons, List.flatMap_nil,
    List.append_nil, List.mem_append, List.mem_singleton,
    List.cons_append, List.nil_append, List.dropLast, List.range_succ,
    List.range_zero, List.map_append, List.map_cons, List.map_nil,
    List.take_succ_cons, List.take_zero, List.mem_cons,
    List.not_mem_nil, or_false, List.length_cons, List.length_nil] at h
  rcases h with h|h|h|h|h|h|h|h|h|h|h|h|h|h|h|h|h|h|h|h <;> subst h <;> simp

theorem frameChunk_no_symlink {f : Frame} {e : List String × Node}
    (h : e ∈ (frameOps f).flatMap opEntries) :
    ∀ t, e.2 ≠ Node.symlink t := by
  simp only [frameOps, opEntries, prefixDirs, Frame.path, Frame.dir,
    List.dropLast_concat, List.flatMap_cons, List.flatMap_nil,
    List.append_nil, List.mem_append, List.mem_singleton,
    List.cons_append, List.nil_append, List.dropLast, List.range_succ,
    List.range_zero, List.map_append, List.map_cons, List.map_nil,
    List.take_succ_cons, List.take_zero, List.mem_cons,
    List.not_mem_nil, or_false, List.length_cons, List.length_nil] at h
  rcases h with h|h|h|h|h|h|h|h|h|h|h|h|h|h|h|h|h|h|h|h <;> subst h <;> simp

theorem frameChunk_mem_dir (f : Frame) :
    (f.dir, Node.dir) ∈ (frameOps f).flatMap opEntries := by
  simp only [frameOps, opEntries, prefixDirs, Frame.path, Frame.dir,
    List.dropLast_concat, List.flatMap_cons, List.flatMap_nil,
    List.append_nil, List.mem_append, List.mem_singleton,
    List.cons_append, List.nil_append, List.dropLast, List.range_succ,
    List.range_zero, List.map_append, List.map_cons, List.map_nil,
    List.take_succ_cons, List.take_zero, List.mem_cons,
    List.not_mem_nil, or_false, List.length_cons, List.length_nil]
  tauto

theorem mem_frameOps_isLink {f : Frame} {op : FsOp} (h : op ∈ frameOps f) :
    op.isLink = false := by
  simp only [frameOps, List.mem_cons, List.not_mem_nil, or_false] at h
  rcases h with h|h|h|h <;> subst h <;> rfl

theorem hasPath_eq_false_of_forall {fs : Fs} {p : List String}
    (h : ∀ e ∈ fs, e.1 ≠ p) : hasPath fs p = false :=
  hasPath_eq_false_iff.mpr (entriesAt_eq_nil_of_forall h)

/-! ### The closed form of a successful activation -/

theorem linkPaths_nodup {frames : List Frame}
    (hnodup : (frames.map Frame.name).Nodup) :
    ((pendingLinks frames).map Prod.snd).Nodup := by
  unfold pendingLinks
  rw [List.append_assoc, List.map_append]
  apply List.Nodup.append
  · have : (frames.map frameLink).map Prod.snd =
        (frames.map Frame.name).map
          (fun n => ["streaming", "header", "h", n]) := by
      simp [frameLink, Function.comp]
    rw [this]
    exact hnodup.map (fun a b h => by simpa using h)
  · decide
  · intro x hx hy
    simp only [List.map_map, List.mem_map, Function.comp] at hx
    obtain ⟨f, _, rfl⟩ := hx
    simp [streamingClassLinks, controlClassLinks, frameLink] at hy

theorem pendingLink_path_cases {frames : List Frame}
    {tl : List String × List String} (h : tl ∈ pendingLinks frames) :
    (∃ f ∈ frames, tl = frameLink f) ∨
      tl ∈ streamingClassLinks ∨ tl ∈ controlClassLinks := by
  simp only [pendingLinks, List.mem_append, List.mem_map] at h
  rcases h with (⟨f, hf, rfl⟩ | h) | h
  · exact Or.inl ⟨f, hf, rfl⟩
  · exact Or.inr (Or.inl h)
  · exact Or.inr (Or.inr h)

theorem fresh_frameChunks {frames : List Frame} {p : List String}
    (h : ∀ f ∈ frames, ∀ e ∈ (frameOps f).flatMap opEntries, e.1 ≠ p) :
    hasPath ((frames.flatMap frameOps).flatMap opEntries) p = false := by
  apply hasPath_eq_false_of_forall
  intro e he
  rw [List.flatMap_assoc] at he
  obtain ⟨f, hf, hef⟩ := List.mem_flatMap.mp he
  exact h f hf e hef

theorem fresh_fm_header {frames : List Frame}
    (hfmt : ∀ f ∈ frames, f.format ≠ "header" ∧ f.format ≠ "class")
    (nm : String) :
    hasPath ((frames.flatMap frameOps).flatMap opEntries)
      ["streaming", "header", "h", nm] = false := by
  apply fresh_frameChunks
  intro f hf e he hep
  rcases frameChunk_shape he with ⟨h1, _⟩ | ⟨rest, h1⟩
  · rw [h1] at hep; simp at hep
  · rw [h1] at hep
    simp only [List.cons.injEq] at hep
    exact (hfmt f hf).1 hep.2.1

theorem fresh_fm_class {frames : List Frame}
    (hfmt : ∀ f ∈ frames, f.format ≠ "header" ∧ f.format ≠ "class")
    (x nm : String) :
    hasPath ((frames.flatMap frameOps).flatMap opEntries)
      ["streaming", "class", x, nm] = false := by
  apply fresh_frameChunks
  intro f hf e he hep
  rcases frameChunk_shape he with ⟨h1, _⟩ | ⟨rest, h1⟩
  · rw [h1] at hep; simp at hep
  · rw [h1] at hep
    simp only [List.cons.injEq] at hep
    exact (hfmt f hf).2 hep.2.1

theorem fresh_fm_control (frames : List Frame) (rest : List String) :
    hasPath ((frames.flatMap frameOps).flatMap opEntries)
      ("control" :: rest) = false := by
  apply fresh_frameChunks
  intro f hf e he hep
  rcases frameChunk_shape he with ⟨h1, _⟩ | ⟨r, h1⟩
  · rw [h1] at hep; simp at hep
  · rw [h1] at hep; simp at hep

theorem fresh_core {frames : List Frame}
    (hfmt : ∀ f ∈ frames, f.format ≠ "header" ∧ f.format ≠ "class")
    (tl : List String × List String) (htl : tl ∈ pendingLinks frames) :
    hasPath (skeletonFs ++
        (([FsOp.createDir ["streaming", "header", "h"]] ++
          [FsOp.write ["streaming_interval"] "1\n",
           FsOp.write ["streaming_maxpacket"] "3072\n",
           FsOp.write ["streaming_maxburst"] "1\n"] ++
          frames.flatMap frameOps ++
          [FsOp.createDir ["control", "header", "h"]]).flatMap opEntries))
      tl.2 = false := by
  have hsplit : ∀ p : List String,
      hasPath skeletonFs p = false →
      hasPath (opEntries (FsOp.createDir ["streaming", "header", "h"])) p
        = false →
      hasPath (opEntries (FsOp.write ["streaming_interval"] "1\n")) p
        = false →
      hasPath (opEntries (FsOp.write ["streaming_maxpacket"] "3072\n")) p
        = false →
      hasPath (opEntries (FsOp.write ["streaming_maxburst"] "1\n")) p
        = false →
      hasPath ((frames.flatMap frameOps).flatMap opEntries) p = false →
      hasPath (opEntries (FsOp.createDir ["control", "header", "h"])) p
        = false →
      hasPath (skeletonFs ++
        (([FsOp.createDir ["streaming", "header", "h"]] ++
          [FsOp.write ["streaming_interval"] "1\n",
           FsOp.write ["streaming_maxpacket"] "3072\n",
           FsOp.write ["streaming_maxburst"] "1\n"] ++
          frames.flatMap frameOps ++
          [FsOp.createDir ["control", "header", "h"]]).flatMap opEntries))
        p = false := by
    intro p h1 h2 h3 h4 h5 h6 h7
    simp only [List.flatMap_append, List.flatMap_cons, List.flatMap_nil,
      List.append_nil, hasPath_append, List.nil_append]
    rw [h1, h2, h3, h4, h5, h6, h7]
    rfl
  rcases pendingLink_path_cases htl with ⟨g, hg, rfl⟩ | h | h
  · exact hsplit ["streaming", "header", "h", g.name] rfl rfl rfl rfl rfl
      (fresh_fm_header hfmt g.name) rfl
  · simp only [streamingClassLinks, List.mem_cons, List.not_mem_nil,
      or_false] at h
    rcases h with rfl | rfl | rfl <;>
      exact hsplit _ rfl rfl rfl rfl rfl (fresh_fm_class hfmt _ _) rfl
  · simp only [controlClassLinks, List.mem_cons, List.not_mem_nil,
      or_false] at h
    rcases h with rfl | rfl <;>
      exact hsplit _ rfl rfl rfl rfl rfl (fresh_fm_control frames _) rfl

theorem runOps_register (frames : List Frame)
    (hnodup : (frames.map Frame.name).Nodup)
    (hfmt : ∀ f ∈ frames, f.format ≠ "header" ∧ f.format ≠ "class") :
    runOps (fun _ => false) 0 skeletonFs (registerOps frames) =
      .ok (activationFs frames) := by
  unfold registerOps
  rw [runOps_noFail_nonlinks _ _ _ _ ?hA]
  case hA =>
    intro op hop
    simp only [List.mem_append, List.mem_singleton, List.mem_cons,
      List.not_mem_nil, or_false] at hop
    rcases hop with ((h | h) | h) | h
    · subst h; rfl
    · rcases h with h | h | h <;> (subst h; rfl)
    · obtain ⟨f, _, hf⟩ := List.mem_flatMap.mp h
      exact mem_frameOps_isLink hf
    · subst h; rfl
  rw [runOps_noFail_links _ _ _ (fun tl htl => fresh_core hfmt tl htl)
    (linkPaths_nodup hnodup)]
  congr 1
  unfold activationFs registerOps
  simp only [List.flatMap_append, flatMap_opEntries_mapSymlink,
    List.append_assoc]

/-! ### Failing runs leave the successful prefix in place -/

theorem runOps_error_state (fail : Nat → Bool) (i : Nat) (fs : Fs)
    (ops : List FsOp) {k : Nat} {s : Fs}
    (h : runOps fail i fs ops = .error (k, s)) :
    i ≤ k ∧ k - i < ops.length ∧ s = applyPrefix fs (ops.take (k - i)) := by
  induction ops generalizing i fs with
  | nil => simp [runOps] at h
  | cons op ops ih =>
      simp only [runOps] at h
      by_cases hf : fail i = true
      · rw [if_pos hf] at h
        simp only [Except.error.injEq, Prod.mk.injEq] at h
        obtain ⟨rfl, rfl⟩ := h
        exact ⟨le_refl _, by simp, by simp [applyPrefix]⟩
      · rw [if_neg hf] at h
        cases happ : applyOp fs op with
        | none =>
            rw [happ] at h
            simp only [Except.error.injEq, Prod.mk.injEq] at h
            obtain ⟨rfl, rfl⟩ := h
            exact ⟨le_refl _, by simp, by simp [applyPrefix]⟩
        | some fs' =>
            rw [happ] at h
            obtain ⟨h1, h2, h3⟩ := ih (i + 1) fs' h
            refine ⟨by omega, by simp only [List.length_cons]; omega, ?_⟩
            have hk : k - i = (k - (i + 1)) + 1 := by omega
            rw [hk, List.take_succ_cons]
            simp only [applyPrefix, List.foldl_cons, happ, Option.getD_some]
            exact h3

/-! ### Behaviour of the teardown walk -/

theorem mem_of_getLast?_eq {α : Type} {l : List α} {a : α}
    (h : l.getLast? = some a) : a ∈ l := by
  obtain ⟨hne, rfl⟩ :=
    List.mem_getLast?_eq_getLast (show a ∈ l.getLast? from by simp [h])
  exact List.getLast_mem hne

theorem kindAt_ne_nil {fs : Fs} {p : List String} {k : Node}
    (h : kindAt fs p = some k) : entriesAt fs p ≠ [] := by
  intro hnil
  rw [kindAt, hnil] at h
  simp at h

theorem walkEntries_sublist_aux (fuel : Nat)
    (hwalk : ∀ fs dir rm fs',
      walk_and_delete fuel fs dir rm = some fs' → fs'.Sublist fs) :
    ∀ (names : List String) (fs : Fs) (dir : List String)
      (rm : List String → Bool) (fs' : Fs),
      walkEntries fuel fs dir rm names = some fs' → fs'.Sublist fs := by
  intro names
  induction names with
  | nil =>
      intro fs dir rm fs' h
      simp only [walkEntries, Option.some.injEq] at h
      exact h ▸ List.Sublist.refl fs
  | cons n ns ih =>
      intro fs dir rm fs' h
      rw [walkEntries] at h
      split at h
      · exact (ih _ _ _ _ h).trans (removeAt_sublist fs _)
      · split at h
        · rename_i fs₂ hw
          split at h
          · exact absurd h (by simp)
          · rename_i fs₃ hw₃
            exact ((ih _ _ _ _ h).trans
              (removeDirAttempt_sublist fs₃ _ _)).trans (hwalk _ _ _ _ hw₃)
        · exact ih _ _ _ _ h

theorem walk_and_delete_sublist :
    ∀ (fuel : Nat) (fs : Fs) (dir : List String)
      (rm : List String → Bool) (fs' : Fs),
      walk_and_delete fuel fs dir rm = some fs' → fs'.Sublist fs := by
  intro fuel
  induction fuel with
  | zero => intro fs dir rm fs' h; simp [walk_and_delete] at h
  | succ fuel ih =>
      intro fs dir rm fs' h
      rw [walk_and_delete] at h
      split at h
      · exact walkEntries_sublist_aux fuel ih _ _ _ _ _ h
      · simp at h

theorem walkEntries_preserves_aux (fuel : Nat)
    (hwalk : ∀ fs dir rm fs' q,
      walk_and_delete fuel fs dir rm = some fs' → ¬ isUnder dir q →
      entriesAt fs' q = entriesAt fs q) :
    ∀ (names : List String) (fs : Fs) (dir : List String)
      (rm : List String → Bool) (fs' : Fs) (q : List String),
      walkEntries fuel fs dir rm names = some fs' → ¬ isUnder dir q →
      entriesAt fs' q = entriesAt fs q := by
  intro names
  induction names with
  | nil =>
      intro fs dir rm fs' q h hq
      simp only [walkEntries, Option.some.injEq] at h
      rw [← h]
  | cons n ns ih =>
      intro fs dir rm fs' q h hq
      have hqn : q ≠ dir ++ [n] := fun c => hq (c ▸ isUnder_concat dir n)
      rw [walkEntries] at h
      split at h
      · rw [ih _ _ _ _ _ h hq, entriesAt_removeAt, if_neg hqn]
      · split at h
        · split at h
          · exact absurd h (by simp)
          · rename_i fs₂ hw₂
            rw [ih _ _ _ _ _ h hq, entriesAt_removeDirAttempt_ne hqn,
              hwalk _ _ _ _ _ hw₂
                (fun c => hq (isUnder_of_isUnder_concat c))]
        · exact ih _ _ _ _ _ h hq

theorem walk_and_delete_preserves :
    ∀ (fuel : Nat) (fs : Fs) (dir : List String)
      (rm : List String → Bool) (fs' : Fs) (q : List String),
      walk_and_delete fuel fs dir rm = some fs' → ¬ isUnder dir q →
      entriesAt fs' q = entriesAt fs q := by
  intro fuel
  induction fuel with
  | zero => intro fs dir rm fs' q h hq; simp [walk_and_delete] at h
  | succ fuel ih =>
      intro fs dir rm fs' q h hq
      rw [walk_and_delete] at h
      split at h
      · exact walkEntries_preserves_aux fuel ih _ _ _ _ _ _ h hq
      · simp at h

theorem kindAt_all_dir {fs : Fs} {q : List String}
    (h : ∀ k ∈ entriesAt fs q, k = Node.dir) :
    kindAt fs q = none ∨ kindAt fs q = some Node.dir := by
  cases hk : kindAt fs q with
  | none => exact Or.inl rfl
  | some k =>
      exact Or.inr (by rw [h k (mem_of_getLast?_eq hk)])

theorem isSymlinkAt_false_of_all_dir {fs : Fs} {q : List String}
    (h : ∀ k ∈ entriesAt fs q, k = Node.dir) :
    isSymlinkAt fs q = false := by
  rcases kindAt_all_dir h with hk | hk <;> simp [isSymlinkAt, hk]

theorem kindAt_all_sym {fs : Fs} {q : List String} {t : List String}
    (h : ∀ k ∈ entriesAt fs q, k = Node.symlink t) :
    kindAt fs q = none ∨ kindAt fs q = some (Node.symlink t) := by
  cases hk : kindAt fs q with
  | none => exact Or.inl rfl
  | some k =>
      exact Or.inr (by rw [h k (mem_of_getLast?_eq hk)])

theorem existsAt_false_of_dangling {fs : Fs} {q t : List String}
    (h : ∀ k ∈ entriesAt fs q, k = Node.symlink t)
    (ht : entriesAt fs t = []) : existsAt fs q = false := by
  rcases kindAt_all_sym h with hk | hk
  · simp [existsAt, hk]
  · simp [existsAt, hk, hasPath_eq_false_iff.mpr ht]

theorem isDirAt_false_of_dangling {fs : Fs} {q t : List String}
    (h : ∀ k ∈ entriesAt fs q, k = Node.symlink t)
    (ht : entriesAt fs t = []) : isDirAt fs q = false := by
  have hkt : kindAt fs t = none := by
    simp [kindAt, ht]
  rcases kindAt_all_sym h with hk | hk
  · simp [isDirAt, hk]
  · simp [isDirAt, hk, hkt]

theorem walkEntries_protect_aux (fuel : Nat)
    (hwalk : ∀ fs dir rm fs' q,
      walk_and_delete fuel fs dir rm = some fs' →
      (∀ k ∈ entriesAt fs q, k = Node.dir) → rm q = false →
      entriesAt fs' q = entriesAt fs q) :
    ∀ (names : List String) (fs : Fs) (dir : List String)
      (rm : List String → Bool) (fs' : Fs) (q : List String),
      walkEntries fuel fs dir rm names = some fs' →
      (∀ k ∈ entriesAt fs q, k = Node.dir) → rm q = false →
      entriesAt fs' q = entriesAt fs q := by
  intro names
  induction names with
  | nil =>
      intro fs dir rm fs' q h hdir hrm
      simp only [walkEntries, Option.some.injEq] at h
      rw [← h]
  | cons n ns ih =>
      intro fs dir rm fs' q h hdir hrm
      rw [walkEntries] at h
      split at h
      · rename_i hcond
        by_cases hqn : q = dir ++ [n]
        · rw [← hqn, isSymlinkAt_false_of_all_dir hdir] at hcond
          simp at hcond
        · have hstep : entriesAt (removeAt fs (dir ++ [n])) q =
              entriesAt fs q := by
            rw [entriesAt_removeAt, if_neg hqn]
          rw [ih _ _ _ _ _ h (by rw [hstep]; exact hdir) hrm, hstep]
      · split at h
        · split at h
          · exact absurd h (by simp)
          · rename_i fs₂ hw₂
            have hin : entriesAt fs₂ q = entriesAt fs q :=
              hwalk _ _ _ _ _ hw₂ hdir hrm
            by_cases hqn : q = dir ++ [n]
            · subst hqn
              rw [removeDirAttempt_of_rm_false hrm] at h
              rw [ih _ _ _ _ _ h (by rw [hin]; exact hdir) hrm, hin]
            · have hstep : entriesAt (removeDirAttempt fs₂ (dir ++ [n]) rm) q
                  = entriesAt fs q := by
                rw [entriesAt_removeDirAttempt_ne hqn, hin]
              rw [ih _ _ _ _ _ h (by rw [hstep]; exact hdir) hrm, hstep]
        · exact ih _ _ _ _ _ h hdir hrm

theorem walk_and_delete_protect :
    ∀ (fuel : Nat) (fs : Fs) (dir : List String)
      (rm : List String → Bool) (fs' : Fs) (q : List String),
      walk_and_delete fuel fs dir rm = some fs' →
      (∀ k ∈ entriesAt fs q, k = Node.dir) → rm q = false →
      entriesAt fs' q = entriesAt fs q := by
  intro fuel
  induction fuel with
  | zero => intro fs dir rm fs' q h _ _; simp [walk_and_delete] at h
  | succ fuel ih =>
      intro fs dir rm fs' q h hdir hrm
      rw [walk_and_delete] at h
      split at h
      · exact walkEntries_protect_aux fuel
          (fun fs dir rm fs' q hh h1 h2 => ih fs dir rm fs' q hh h1 h2)
          _ _ _ _ _ _ h hdir hrm
      · simp at h

theorem walkEntries_dangling_aux (fuel : Nat)
    (hwalk : ∀ fs dir rm fs' q t,
      walk_and_delete fuel fs dir rm = some fs' →
      (∀ k ∈ entriesAt fs q, k = Node.symlink t) → entriesAt fs t = [] →
      entriesAt fs' q = entriesAt fs q) :
    ∀ (names : List String) (fs : Fs) (dir : List String)
      (rm : List String → Bool) (fs' : Fs) (q t : List String),
      walkEntries fuel fs dir rm names = some fs' →
      (∀ k ∈ entriesAt fs q, k = Node.symlink t) → entriesAt fs t = [] →
      entriesAt fs' q = entriesAt fs q := by
  intro names
  induction names with
  | nil =>
      intro fs dir rm fs' q t h hsym ht
      simp only [walkEntries, Option.some.injEq] at h
      rw [← h]
  | cons n ns ih =>
      intro fs dir rm fs' q t h hsym ht
      rw [walkEntries] at h
      split at h
      · rename_i hcond
        by_cases hqn : q = dir ++ [n]
        · rw [← hqn, existsAt_false_of_dangling hsym ht] at hcond
          simp at hcond
        · have hstep : entriesAt (removeAt fs (dir ++ [n])) q =
              entriesAt fs q := by
            rw [entriesAt_removeAt, if_neg hqn]
          have htstep : entriesAt (removeAt fs (dir ++ [n])) t = [] := by
            rw [entriesAt_removeAt]
            by_cases hc : t = dir ++ [n] <;> simp [hc, ht]
          rw [ih _ _ _ _ _ _ h (by rw [hstep]; exact hsym) htstep, hstep]
      · rename_i hncond
        split at h
        · rename_i hdircond
          split at h
          · exact absurd h (by simp)
          · rename_i fs₂ hw₂
            by_cases hqn : q = dir ++ [n]
            · rw [← hqn, isDirAt_false_of_dangling hsym ht] at hdircond
              simp at hdircond
            · have hin : entriesAt fs₂ q = entriesAt fs q :=
                hwalk _ _ _ _ _ _ hw₂ hsym ht
              have hint : entriesAt fs₂ t = [] :=
                List.sublist_nil.mp (ht ▸
                  entriesAt_sublist (walk_and_delete_sublist _ _ _ _ _ hw₂) t)
              have hstep : entriesAt (removeDirAttempt fs₂ (dir ++ [n]) rm) q
                  = entriesAt fs q := by
                rw [entriesAt_removeDirAttempt_ne hqn, hin]
              have htstep :
                  entriesAt (removeDirAttempt fs₂ (dir ++ [n]) rm) t = [] :=
                List.sublist_nil.mp (hint ▸
                  entriesAt_sublist (removeDirAttempt_sublist fs₂ _ _) t)
              rw [ih _ _ _ _ _ _ h (by rw [hstep]; exact hsym) htstep, hstep]
        · exact ih _ _ _ _ _ _ h hsym ht

theorem walk_and_delete_dangling :
    ∀ (fuel : Nat) (fs : Fs) (dir : List String)
      (rm : List String → Bool) (fs' : Fs) (q t : List String),
      walk_and_delete fuel fs dir rm = some fs' →
      (∀ k ∈ entriesAt fs q, k = Node.symlink t) → entriesAt fs t = [] →
      entriesAt fs' q = entriesAt fs q := by
  intro fuel
  induction fuel with
  | zero => intro fs dir rm fs' q t h _ _; simp [walk_and_delete] at h
  | succ fuel ih =>
      intro fs dir rm fs' q t h hsym ht
      rw [walk_and_delete] at h
      split at h
      · exact walkEntries_dangling_aux fuel
          (fun fs dir rm fs' q t hh h1 h2 => ih fs dir rm fs' q t hh h1 h2)
          _ _ _ _ _ _ _ h hsym ht
      · simp at h

theorem kindAt_eq_of_entriesAt_eq {fs fs' : Fs} {p : List String}
    (h : entriesAt fs' p = entriesAt fs p) : kindAt fs' p = kindAt fs p := by
  unfold kindAt
  rw [h]

theorem not_isUnder_of_take_ne {p q : List String}
    (h : q.take p.length ≠ p) : ¬ isUnder p q := fun c => h c.1

theorem take_concat_concat (dir : List String) (d s : String) :
    ((dir ++ [d]) ++ [s]).take (dir.length + 1) = dir ++ [d] := by
  have h := List.take_left (dir ++ [d]) [s]
  simpa using h

theorem concat_ne_of_ne {dir : List String} {d n : String} (h : d ≠ n) :
    dir ++ [d] ≠ dir ++ [n] := by
  intro c
  exact h (by simpa using List.append_cancel_left c)

theorem walkEntries_remove_sym (fuel : Nat) :
    ∀ (names : List String) (fs : Fs) (dir : List String)
      (rm : List String → Bool) (fs' : Fs) (s : String) (t : List String),
      walkEntries fuel fs dir rm names = some fs' →
      s ∈ names →
      kindAt fs (dir ++ [s]) = some (Node.symlink t) →
      entriesAt fs t ≠ [] → ¬ isUnder dir t →
      entriesAt fs' (dir ++ [s]) = [] := by
  intro names
  induction names with
  | nil =>
      intro fs dir rm fs' s t h hmem hkind ht htu
      simp at hmem
  | cons n ns ih =>
      intro fs dir rm fs' s t h hmem hkind ht htu
      have htn : t ≠ dir ++ [n] := fun c => htu (c ▸ isUnder_concat dir n)
      by_cases hns : n = s
      · subst hns
        rw [walkEntries] at h
        rw [if_pos ?_] at h
        · have hrem : entriesAt (removeAt fs (dir ++ [n])) (dir ++ [n]) =
              [] := by
            rw [entriesAt_removeAt, if_pos rfl]
          exact List.sublist_nil.mp (hrem ▸ entriesAt_sublist
            (walkEntries_sublist_aux fuel (walk_and_delete_sublist fuel)
              _ _ _ _ _ h) _)
        · rw [Bool.and_eq_true]
          refine ⟨?_, by simp [isSymlinkAt, hkind]⟩
          simp [existsAt, hkind, hasPath_eq_true_iff.mpr ht]
      · have hmem' : s ∈ ns := by
          rcases List.mem_cons.mp hmem with c | c
          · exact absurd c.symm hns
          · exact c
        have hsn : dir ++ [s] ≠ dir ++ [n] :=
          concat_ne_of_ne (fun c => hns c.symm)
        rw [walkEntries] at h
        split at h
        · have hstep : entriesAt (removeAt fs (dir ++ [n])) (dir ++ [s]) =
              entriesAt fs (dir ++ [s]) := by
            rw [entriesAt_removeAt, if_neg hsn]
          have htstep : entriesAt (removeAt fs (dir ++ [n])) t =
              entriesAt fs t := by
            rw [entriesAt_removeAt, if_neg htn]
          exact ih _ _ _ _ _ _ h hmem'
            ((kindAt_eq_of_entriesAt_eq hstep).trans hkind)
            (by rw [htstep]; exact ht) htu
        · split at h
          · split at h
            · exact absurd h (by simp)
            · rename_i fs₂ hw₂
              have hp1 : entriesAt fs₂ (dir ++ [s]) =
                  entriesAt fs (dir ++ [s]) :=
                walk_and_delete_preserves fuel _ _ _ _ _ hw₂
                  (not_isUnder_concat_sibling dir n s)
              have hp2 : entriesAt fs₂ t = entriesAt fs t :=
                walk_and_delete_preserves fuel _ _ _ _ _ hw₂
                  (fun c => htu (isUnder_of_isUnder_concat c))
              have hstep : entriesAt (removeDirAttempt fs₂ (dir ++ [n]) rm)
                  (dir ++ [s]) = entriesAt fs (dir ++ [s]) := by
                rw [entriesAt_removeDirAttempt_ne hsn, hp1]
              have htstep : entriesAt (removeDirAttempt fs₂ (dir ++ [n]) rm)
                  t = entriesAt fs t := by
                rw [entriesAt_removeDirAttempt_ne htn, hp2]
              exact ih _ _ _ _ _ _ h hmem'
                ((kindAt_eq_of_entriesAt_eq hstep).trans hkind)
                (by rw [htstep]; exact ht) htu
          · exact ih _ _ _ _ _ _ h hmem' hkind ht htu

theorem walk_and_delete_remove_sym (fuel : Nat) {fs : Fs}
    {dir : List String} {rm : List String → Bool} {fs' : Fs} {s : String}
    {t : List String}
    (h : walk_and_delete fuel fs dir rm = some fs')
    (hkind : kindAt fs (dir ++ [s]) = some (Node.symlink t))
    (ht : entriesAt fs t ≠ []) (htu : ¬ isUnder dir t) :
    entriesAt fs' (dir ++ [s]) = [] := by
  cases fuel with
  | zero => simp [walk_and_delete] at h
  | succ fuel =>
      rw [walk_and_delete] at h
      split at h
      · exact walkEntries_remove_sym fuel _ _ _ _ _ _ _ h
          (mem_childNames (kindAt_ne_nil hkind)) hkind ht htu
      · simp at h

theorem walkEntries_remove_sym2 (fuel : Nat) :
    ∀ (names : List String) (fs : Fs) (dir : List String)
      (rm : List String → Bool) (fs' : Fs) (d s : String)
      (t : List String),
      walkEntries fuel fs dir rm names = some fs' →
      d ∈ names →
      kindAt fs (dir ++ [d]) = some Node.dir →
      kindAt fs ((dir ++ [d]) ++ [s]) = some (Node.symlink t) →
      entriesAt fs t ≠ [] → ¬ isUnder dir t →
      entriesAt fs' ((dir ++ [d]) ++ [s]) = [] := by
  intro names
  induction names with
  | nil =>
      intro fs dir rm fs' d s t h hmem hkd hks ht htu
      simp at hmem
  | cons n ns ih =>
      intro fs dir rm fs' d s t h hmem hkd hks ht htu
      have htn : t ≠ dir ++ [n] := fun c => htu (c ▸ isUnder_concat dir n)
      by_cases hnd : n = d
      · subst hnd
        rw [walkEntries] at h
        rw [if_neg (by simp [isSymlinkAt, hkd]), if_pos ?_] at h
        · cases hw : walk_and_delete fuel fs (dir ++ [n]) rm with
          | none => rw [hw] at h; simp at h
          | some fs₂ =>
              rw [hw] at h
              have hin : entriesAt fs₂ ((dir ++ [n]) ++ [s]) = [] :=
                walk_and_delete_remove_sym fuel hw hks ht
                  (fun c => htu (isUnder_of_isUnder_concat c))
              have hstep : entriesAt (removeDirAttempt fs₂ (dir ++ [n]) rm)
                  ((dir ++ [n]) ++ [s]) = [] := by
                rw [entriesAt_removeDirAttempt_ne (by simp), hin]
              exact List.sublist_nil.mp (hstep ▸ entriesAt_sublist
                (walkEntries_sublist_aux fuel (walk_and_delete_sublist fuel)
                  _ _ _ _ _ h) _)
        · simp [isDirAt, hkd]
      · have hmem' : d ∈ ns := by
          rcases List.mem_cons.mp hmem with c | c
          · exact absurd c.symm hnd
          · exact c
        have hdn : dir ++ [d] ≠ dir ++ [n] :=
          concat_ne_of_ne (fun c => hnd c.symm)
        have hdsn : (dir ++ [d]) ++ [s] ≠ dir ++ [n] := by
          intro c
          have := congrArg List.length c
          simp at this
        have hdsu : ¬ isUnder (dir ++ [n]) ((dir ++ [d]) ++ [s]) := by
          apply not_isUnder_of_take_ne
          rw [show (dir ++ [n]).length = dir.length + 1 by simp,
            take_concat_concat]
          exact hdn
        rw [walkEntries] at h
        split at h
        · have hstep1 : entriesAt (removeAt fs (dir ++ [n])) (dir ++ [d]) =
              entriesAt fs (dir ++ [d]) := by
            rw [entriesAt_removeAt, if_neg hdn]
          have hstep2 : entriesAt (removeAt fs (dir ++ [n]))
              ((dir ++ [d]) ++ [s]) =
              entriesAt fs ((dir ++ [d]) ++ [s]) := by
            rw [entriesAt_removeAt, if_neg hdsn]
          have htstep : entriesAt (removeAt fs (dir ++ [n])) t =
              entriesAt fs t := by
            rw [entriesAt_removeAt, if_neg htn]
          exact ih _ _ _ _ _ _ _ h hmem'
            ((kindAt_eq_of_entriesAt_eq hstep1).trans hkd)
            ((kindAt_eq_of_entriesAt_eq hstep2).trans hks)
            (by rw [htstep]; exact ht) htu
        · split at h
          · split at h
            · exact absurd h (by simp)
            · rename_i fs₂ hw₂
              have hp1 : entriesAt fs₂ (dir ++ [d]) =
                  entriesAt fs (dir ++ [d]) :=
                walk_and_delete_preserves fuel _ _ _ _ _ hw₂
                  (not_isUnder_concat_sibling dir n d)
              have hp2 : entriesAt fs₂ ((dir ++ [d]) ++ [s]) =
                  entriesAt fs ((dir ++ [d]) ++ [s]) :=
                walk_and_delete_preserves fuel _ _ _ _ _ hw₂ hdsu
              have hp3 : entriesAt fs₂ t = entriesAt fs t :=
                walk_and_delete_preserves fuel _ _ _ _ _ hw₂
                  (fun c => htu (isUnder_of_isUnder_concat c))
              have hstep1 : entriesAt (removeDirAttempt fs₂ (dir ++ [n]) rm)
                  (dir ++ [d]) = entriesAt fs (dir ++ [d]) := by
                rw [entriesAt_removeDirAttempt_ne hdn, hp1]
              have hstep2 : entriesAt (removeDirAttempt fs₂ (dir ++ [n]) rm)
                  ((dir ++ [d]) ++ [s]) =
                  entriesAt fs ((dir ++ [d]) ++ [s]) := by
                rw [entriesAt_removeDirAttempt_ne hdsn, hp2]
              have htstep : entriesAt (removeDirAttempt fs₂ (dir ++ [n]) rm)
                  t = entriesAt fs t := by
                rw [entriesAt_removeDirAttempt_ne htn, hp3]
              exact ih _ _ _ _ _ _ _ h hmem'
                ((kindAt_eq_of_entriesAt_eq hstep1).trans hkd)
                ((kindAt_eq_of_entriesAt_eq hstep2).trans hks)
                (by rw [htstep]; exact ht) htu
          · exact ih _ _ _ _ _ _ _ h hmem' hkd hks ht htu

theorem walk_and_delete_remove_sym2 (fuel : Nat) {fs : Fs}
    {dir : List String} {rm : List String → Bool} {fs' : Fs} {d s : String}
    {t : List String}
    (h : walk_and_delete fuel fs dir rm = some fs')
    (hkd : kindAt fs (dir ++ [d]) = some Node.dir)
    (hks : kindAt fs ((dir ++ [d]) ++ [s]) = some (Node.symlink t))
    (ht : entriesAt fs t ≠ []) (htu : ¬ isUnder dir t) :
    entriesAt fs' ((dir ++ [d]) ++ [s]) = [] := by
  cases fuel with
  | zero => simp [walk_and_delete] at h
  | succ fuel =>
      rw [walk_and_delete] at h
      split at h
      · exact walkEntries_remove_sym2 fuel _ _ _ _ _ _ _ _ h
          (mem_childNames (kindAt_ne_nil hkd)) hkd hks ht htu
      · simp at h

theorem bound_of_sublist {fs fs' : Fs} {B : Nat} (h : fs'.Sublist fs)
    (hb : ∀ e ∈ fs, e.1.length ≤ B) : ∀ e ∈ fs', e.1.length ≤ B :=
  fun e he => hb e (h.subset he)

theorem branch_real_dir {fs : Fs} {q : List String}
    (h1 : (existsAt fs q && isSymlinkAt fs q) = false)
    (h2 : isDirAt fs q = true) : isRealDir fs q = true := by
  cases hk : kindAt fs q with
  | none => simp [isDirAt, hk] at h2
  | some k =>
      cases k with
      | dir => simp [isRealDir, hk]
      | file c => simp [isDirAt, hk] at h2
      | symlink t =>
          have hdir : kindAt fs t = some Node.dir := by
            simp only [isDirAt, hk, beq_iff_eq] at h2
            exact h2
          have hhas : hasPath fs t = true :=
            hasPath_eq_true_iff.mpr (kindAt_ne_nil hdir)
          simp [existsAt, isSymlinkAt, hk, hhas] at h1

theorem walkEntries_isSome_aux (B fuel : Nat)
    (hwalk : ∀ (fs : Fs) (dir : List String) (rm : List String → Bool),
      isRealDir fs dir = true → (∀ e ∈ fs, e.1.length ≤ B) →
      B < fuel + dir.length → (walk_and_delete fuel fs dir rm).isSome) :
    ∀ (names : List String) (fs : Fs) (dir : List String)
      (rm : List String → Bool),
      (∀ e ∈ fs, e.1.length ≤ B) → B < fuel + dir.length + 1 →
      (walkEntries fuel fs dir rm names).isSome := by
  intro names
  induction names with
  | nil => intro fs dir rm _ _; simp [walkEntries]
  | cons n ns ih =>
      intro fs dir rm hb hlt
      rw [walkEntries]
      split
      · exact ih _ _ _ (bound_of_sublist (removeAt_sublist fs _) hb) hlt
      · split
        · rename_i h1 h2
          have hreal : isRealDir fs (dir ++ [n]) = true :=
            branch_real_dir (by simpa using h1) h2
          have hlen : B < fuel + (dir ++ [n]).length := by
            simp only [List.length_append, List.length_singleton]
            omega
          have hw := hwalk fs (dir ++ [n]) rm hreal hb hlen
          cases hww : walk_and_delete fuel fs (dir ++ [n]) rm with
          | none => rw [hww] at hw; simp at hw
          | some fs₂ =>
              have hsub := walk_and_delete_sublist fuel _ _ _ _ hww
              exact ih _ _ _
                (bound_of_sublist
                  ((removeDirAttempt_sublist fs₂ _ _).trans hsub) hb) hlt
        · exact ih _ _ _ hb hlt

theorem walk_and_delete_isSome (B : Nat) :
    ∀ (fuel : Nat) (fs : Fs) (dir : List String)
      (rm : List String → Bool),
      isRealDir fs dir = true → (∀ e ∈ fs, e.1.length ≤ B) →
      B < fuel + dir.length → (walk_and_delete fuel fs dir rm).isSome := by
  intro fuel
  induction fuel with
  | zero =>
      intro fs dir rm hreal hb hlt
      have hne : entriesAt fs dir ≠ [] := by
        apply kindAt_ne_nil (k := Node.dir)
        simpa [isRealDir] using hreal
      obtain ⟨k, hk⟩ := exists_mem_of_entriesAt_ne_nil hne
      have := hb _ hk
      simp at this
      omega
  | succ fuel ih =>
      intro fs dir rm hreal hb hlt
      rw [walk_and_delete]
      rw [if_pos hreal]
      exact walkEntries_isSome_aux B fuel ih _ _ _ _ hb (by omega)

/-! ### The activation state, path by path -/

theorem entriesAt_nil (p : List String) : entriesAt [] p = [] := rfl

theorem entriesAt_activation (frames : List Frame) (p : List String) :
    entriesAt (activationFs frames) p =
      entriesAt skeletonFs p
        ++ entriesAt (prefixDirs ["streaming", "header", "h"]) p
        ++ entriesAt [(["streaming_interval"], Node.file "1\n")] p
        ++ entriesAt [(["streaming_maxpacket"], Node.file "3072\n")] p
        ++ entriesAt [(["streaming_maxburst"], Node.file "1\n")] p
        ++ entriesAt ((frames.flatMap frameOps).flatMap opEntries) p
        ++ entriesAt (prefixDirs ["control", "header", "h"]) p
        ++ entriesAt ((frames.map frameLink).map
            (fun tl => (tl.2, Node.symlink tl.1))) p
        ++ entriesAt (streamingClassLinks.map
            (fun tl => (tl.2, Node.symlink tl.1))) p
        ++ entriesAt (controlClassLinks.map
            (fun tl => (tl.2, Node.symlink tl.1))) p := by
  unfold activationFs registerOps pendingLinks
  simp only [List.flatMap_append, flatMap_opEntries_mapSymlink,
    List.flatMap_cons, List.flatMap_nil, List.append_nil, opEntries,
    List.dropLast, prefixDirs, List.length_nil, List.range_zero,
    List.map_nil, List.nil_append, List.map_append, entriesAt_append,
    entriesAt_nil, List.append_assoc]

theorem entriesAt_fm_nil {frames : List Frame} {p : List String}
    (hp1 : p ≠ ["streaming"])
    (hp2 : ∀ f ∈ frames, ∀ rest, p ≠ "streaming" :: f.format :: rest) :
    entriesAt ((frames.flatMap frameOps).flatMap opEntries) p = [] := by
  apply entriesAt_eq_nil_of_forall
  intro e he
  rw [List.flatMap_assoc] at he
  obtain ⟨f, hf, hef⟩ := List.mem_flatMap.mp he
  rcases frameChunk_shape hef with ⟨h1, _⟩ | ⟨rest, h1⟩
  · rw [h1]; exact fun c => hp1 c.symm
  · rw [h1]; exact fun c => hp2 f hf rest c.symm

theorem entriesAt_frameLinks_nil {frames : List Frame} {p : List String}
    (h : ∀ nm : String, p ≠ ["streaming", "header", "h", nm]) :
    entriesAt ((frames.map frameLink).map
      (fun tl => (tl.2, Node.symlink tl.1))) p = [] := by
  apply entriesAt_eq_nil_of_forall
  intro e he
  simp only [List.map_map, List.mem_map, Function.comp] at he
  obtain ⟨g, hg, rfl⟩ := he
  exact fun c => h g.name (by simpa [frameLink] using c.symm)

theorem entriesAt_frameLinks {frames : List Frame} {f : Frame}
    (hf : f ∈ frames) (hnodup : (frames.map Frame.name).Nodup) :
    entriesAt ((frames.map frameLink).map
      (fun tl => (tl.2, Node.symlink tl.1)))
      ["streaming", "header", "h", f.name] = [Node.symlink f.dir] := by
  induction frames with
  | nil => simp at hf
  | cons g gs ih =>
      simp only [List.map_cons, List.nodup_cons] at hnodup ⊢
      rw [entriesAt_cons]
      rcases List.mem_cons.mp hf with rfl | hf'
      · rw [if_pos (by simp [frameLink])]
        have hrest : entriesAt ((gs.map frameLink).map
            (fun tl => (tl.2, Node.symlink tl.1)))
            ["streaming", "header", "h", f.name] = [] := by
          apply entriesAt_eq_nil_of_forall
          intro e he
          simp only [List.map_map, List.mem_map, Function.comp] at he
          obtain ⟨g', hg', rfl⟩ := he
          simp only [frameLink, ne_eq]
          intro c
          simp only [List.cons.injEq] at c
          exact hnodup.1 (c.2.2.2.1 ▸ List.mem_map_of_mem Frame.name hg')
        rw [hrest]
        simp [frameLink]
      · have hne : g.name ≠ f.name := by
          intro c
          exact hnodup.1 (c ▸ List.mem_map_of_mem Frame.name hf')
        rw [if_neg (by simp [frameLink, hne])]
        exact ih hf' hnodup.2

theorem activation_cc (frames : List Frame) :
    entriesAt (activationFs frames) ["control", "class"] = [Node.dir] := by
  rw [entriesAt_activation,
    entriesAt_fm_nil (by simp)
      (fun f hf rest c => by
        simp only [List.cons.injEq] at c
        exact absurd c.1 (by decide)),
    entriesAt_frameLinks_nil (fun nm => by simp)]
  rfl

theorem activation_sc (frames : List Frame)
    (hfmt : ∀ f ∈ frames, f.format ≠ "header" ∧ f.format ≠ "class") :
    entriesAt (activationFs frames) ["streaming", "class"] = [Node.dir] := by
  rw [entriesAt_activation,
    entriesAt_fm_nil (by simp)
      (fun f hf rest c => by
        simp only [List.cons.injEq] at c
        exact (hfmt f hf).2 c.2.1.symm),
    entriesAt_frameLinks_nil (fun nm => by simp)]
  rfl

theorem activation_sh (frames : List Frame)
    (hfmt : ∀ f ∈ frames, f.format ≠ "header" ∧ f.format ≠ "class") :
    entriesAt (activationFs frames) ["streaming", "header"] =
      [Node.dir, Node.dir] := by
  rw [entriesAt_activation,
    entriesAt_fm_nil (by simp)
      (fun f hf rest c => by
        simp only [List.cons.injEq] at c
        exact (hfmt f hf).1 c.2.1.symm),
    entriesAt_frameLinks_nil (fun nm => by simp)]
  rfl

theorem activation_ch (frames : List Frame) :
    entriesAt (activationFs frames) ["control", "header"] =
      [Node.dir, Node.dir] := by
  rw [entriesAt_activation,
    entriesAt_fm_nil (by simp)
      (fun f hf rest c => by
        simp only [List.cons.injEq] at c
        exact absurd c.1 (by decide)),
    entriesAt_frameLinks_nil (fun nm => by simp)]
  rfl

theorem activation_shh (frames : List Frame)
    (hfmt : ∀ f ∈ frames, f.format ≠ "header" ∧ f.format ≠ "class") :
    entriesAt (activationFs frames) ["streaming", "header", "h"] =
      [Node.dir] := by
  rw [entriesAt_activation,
    entriesAt_fm_nil (by simp)
      (fun f hf rest c => by
        simp only [List.cons.injEq] at c
        exact (hfmt f hf).1 c.2.1.symm),
    entriesAt_frameLinks_nil (fun nm => by simp)]
  rfl

theorem activation_chh (frames : List Frame) :
    entriesAt (activationFs frames) ["control", "header", "h"] =
      [Node.dir] := by
  rw [entriesAt_activation,
    entriesAt_fm_nil (by simp)
      (fun f hf rest c => by
        simp only [List.cons.injEq] at c
        exact absurd c.1 (by decide)),
    entriesAt_frameLinks_nil (fun nm => by simp)]
  rfl

theorem activation_sclass_sub (frames : List Frame)
    (hfmt : ∀ f ∈ frames, f.format ≠ "header" ∧ f.format ≠ "class")
    (X : String) (hX : X = "fs" ∨ X = "hs" ∨ X = "ss") :
    entriesAt (activationFs frames) ["streaming", "class", X] = [Node.dir]
      ∧ entriesAt (activationFs frames) ["streaming", "class", X, "h"] =
        [Node.symlink ["streaming", "header", "h"]] := by
  have hfm3 : ∀ (Y : String),
      entriesAt ((frames.flatMap frameOps).flatMap opEntries)
        ["streaming", "class", Y] = [] := fun Y =>
    entriesAt_fm_nil (by simp)
      (fun f hf rest c => by
        simp only [List.cons.injEq] at c
        exact (hfmt f hf).2 c.2.1.symm)
  have hfm4 : ∀ (Y Z : String),
      entriesAt ((frames.flatMap frameOps).flatMap opEntries)
        ["streaming", "class", Y, Z] = [] := fun Y Z =>
    entriesAt_fm_nil (by simp)
      (fun f hf rest c => by
        simp only [List.cons.injEq] at c
        exact (hfmt f hf).2 c.2.1.symm)
  have hfl4 : ∀ (Y Z : String),
      entriesAt ((frames.map frameLink).map
        (fun tl => (tl.2, Node.symlink tl.1)))
        ["streaming", "class", Y, Z] = [] := fun Y Z =>
    entriesAt_frameLinks_nil (fun nm c => by
      simp only [List.cons.injEq] at c
      exact absurd c.2.1 (by decide))
  rcases hX with rfl | rfl | rfl <;>
    exact ⟨by rw [entriesAt_activation, hfm3,
        entriesAt_frameLinks_nil (fun nm => by simp)]; rfl,
      by rw [entriesAt_activation, hfm4, hfl4]; rfl⟩

theorem activation_cclass_sub (frames : List Frame)
    (X : String) (hX : X = "fs" ∨ X = "ss") :
    entriesAt (activationFs frames) ["control", "class", X] = [Node.dir]
      ∧ entriesAt (activationFs frames) ["control", "class", X, "h"] =
        [Node.symlink ["control", "header", "h"]] := by
  have hfm : ∀ (p₂ : List String),
      entriesAt ((frames.flatMap frameOps).flatMap opEntries)
        ("control" :: p₂) = [] := fun p₂ =>
    entriesAt_fm_nil (by simp)
      (fun f hf rest c => by
        simp only [List.cons.injEq] at c
        exact absurd c.1 (by decide))
  have hfl : ∀ (p₂ : List String),
      entriesAt ((frames.map frameLink).map
        (fun tl => (tl.2, Node.symlink tl.1))) ("control" :: p₂) = [] :=
    fun p₂ =>
    entriesAt_frameLinks_nil (fun nm c => by
      simp only [List.cons.injEq] at c
      exact absurd c.1 (by decide))
  rcases hX with rfl | rfl <;>
    exact ⟨by rw [entriesAt_activation, hfm, hfl]; rfl,
      by rw [entriesAt_activation, hfm, hfl]; rfl⟩

theorem mem_of_mem_entriesAt {fs : Fs} {p : List String} {k : Node}
    (h : k ∈ entriesAt fs p) : (p, k) ∈ fs := by
  simp only [entriesAt, List.mem_filterMap] at h
  obtain ⟨⟨q, k'⟩, he, hek⟩ := h
  by_cases hq : q = p
  · subst hq
    have hk' : k' = k := by simpa using hek
    subst hk'
    exact he
  · simp [hq] at hek

theorem activation_framelink (frames : List Frame) {f : Frame}
    (hf : f ∈ frames) (hnodup : (frames.map Frame.name).Nodup)
    (hfmt : ∀ f ∈ frames, f.format ≠ "header" ∧ f.format ≠ "class") :
    entriesAt (activationFs frames) ["streaming", "header", "h", f.name] =
      [Node.symlink f.dir] := by
  rw [entriesAt_activation,
    entriesAt_fm_nil (by simp)
      (fun g hg rest c => by
        simp only [List.cons.injEq] at c
        exact (hfmt g hg).1 c.2.1.symm),
    entriesAt_frameLinks hf hnodup]
  rfl

theorem activation_framedir_ne (frames : List Frame) {f : Frame}
    (hf : f ∈ frames) :
    entriesAt (activationFs frames) f.dir ≠ [] := by
  intro hnil
  have hin : (f.dir, Node.dir) ∈ (frames.flatMap frameOps).flatMap
      opEntries := by
    rw [List.flatMap_assoc]
    exact List.mem_flatMap.mpr ⟨f, hf, frameChunk_mem_dir f⟩
  have hmem : (f.dir, Node.dir) ∈ activationFs frames := by
    unfold activationFs registerOps
    simp only [List.flatMap_append, List.mem_append]
    tauto
  have := mem_entriesAt hmem
  rw [hnil] at this
  simp at this

theorem activation_streaming_alldir (frames : List Frame) :
    ∀ k ∈ entriesAt (activationFs frames) ["streaming"], k = Node.dir := by
  intro k hk
  rw [entriesAt_activation] at hk
  simp only [List.mem_append] at hk
  rcases hk with ((((((((h | h) | h) | h) | h) | h) | h) | h) | h) | h
  · rw [show entriesAt skeletonFs ["streaming"] = [Node.dir] from rfl] at h
    simpa using h
  · rw [show entriesAt (prefixDirs ["streaming", "header", "h"])
      ["streaming"] = [Node.dir] from rfl] at h
    simpa using h
  · simp [entriesAt] at h
  · simp [entriesAt] at h
  · simp [entriesAt] at h
  · have hm := mem_of_mem_entriesAt h
    rw [List.flatMap_assoc] at hm
    obtain ⟨f, hf, hef⟩ := List.mem_flatMap.mp hm
    rcases frameChunk_shape hef with ⟨_, h2⟩ | ⟨rest, h1⟩
    · exact h2
    · simp at h1
  · rw [show entriesAt (prefixDirs ["control", "header", "h"])
      ["streaming"] = [] from rfl] at h
    simp at h
  · rw [entriesAt_frameLinks_nil (fun nm => by simp)] at h
    simp at h
  · rw [show entriesAt (streamingClassLinks.map
      (fun tl => (tl.2, Node.symlink tl.1))) ["streaming"] = [] from rfl]
      at h
    simp at h
  · rw [show entriesAt (controlClassLinks.map
      (fun tl => (tl.2, Node.symlink tl.1))) ["streaming"] = [] from rfl]
      at h
    simp at h

theorem activation_streaming_ne (frames : List Frame) :
    entriesAt (activationFs frames) ["streaming"] ≠ [] := by
  intro hnil
  have hmem : (["streaming"], Node.dir) ∈ activationFs frames := by
    unfold activationFs skeletonFs
    simp
  have := mem_entriesAt hmem
  rw [hnil] at this
  simp at this

theorem frameChunk_len {f : Frame} {e : List String × Node}
    (h : e ∈ (frameOps f).flatMap opEntries) : e.1.length ≤ 5 := by
  simp only [frameOps, opEntries, prefixDirs, Frame.path, Frame.dir,
    List.dropLast_concat, List.flatMap_cons, List.flatMap_nil,
    List.append_nil, List.mem_append, List.mem_singleton,
    List.cons_append, List.nil_append, List.dropLast, List.range_succ,
    List.range_zero, List.map_append, List.map_cons, List.map_nil,
    List.take_succ_cons, List.take_zero, List.mem_cons,
    List.not_mem_nil, or_false, List.length_cons, List.length_nil] at h
  rcases h with h|h|h|h|h|h|h|h|h|h|h|h|h|h|h|h|h|h|h|h <;> subst h <;> simp

theorem linkPath_len {frames : List Frame}
    {tl : List String × List String} (h : tl ∈ pendingLinks frames) :
    tl.2.length = 4 := by
  rcases pendingLink_path_cases h with ⟨f, _, rfl⟩ | h | h
  · simp [frameLink]
  · simp only [streamingClassLinks, List.mem_cons, List.not_mem_nil,
      or_false] at h
    rcases h with rfl | rfl | rfl <;> rfl
  · simp only [controlClassLinks, List.mem_cons, List.not_mem_nil,
      or_false] at h
    rcases h with rfl | rfl <;> rfl

theorem activation_bound (frames : List Frame) :
    ∀ e ∈ activationFs frames, e.1.length ≤ 5 := by
  intro e he
  unfold activationFs registerOps at he
  simp only [List.flatMap_append, List.mem_append] at he
  rcases he with h | ((((h | h) | h) | h) | h)
  · revert e
    decide
  · rcases List.mem_flatMap.mp h with ⟨op, hop, hee⟩
    simp only [List.mem_singleton] at hop
    subst hop
    revert hee
    revert e
    decide
  · rcases List.mem_flatMap.mp h with ⟨op, hop, hee⟩
    simp only [List.mem_cons, List.not_mem_nil, or_false] at hop
    rcases hop with rfl | rfl | rfl <;>
      (revert hee; revert e; decide)
  · rw [List.flatMap_assoc] at h
    obtain ⟨f, _, hef⟩ := List.mem_flatMap.mp h
    exact frameChunk_len hef
  · rcases List.mem_flatMap.mp h with ⟨op, hop, hee⟩
    simp only [List.mem_singleton] at hop
    subst hop
    revert hee
    revert e
    decide
  · rw [flatMap_opEntries_mapSymlink] at h
    obtain ⟨tl, htl, rfl⟩ := List.mem_map.mp h
    simp [linkPath_len htl]

theorem mem_prefixDirs_kind {p : List String} {e : List String × Node}
    (h : e ∈ prefixDirs p) : e.2 = Node.dir := by
  simp only [prefixDirs, List.mem_map] at h
  obtain ⟨i, _, rfl⟩ := h
  rfl

theorem activation_symlink_cases {frames : List Frame}
    {e : List String × Node} {t : List String}
    (he : e ∈ activationFs frames) (hk : e.2 = Node.symlink t) :
    ∃ tl ∈ pendingLinks frames, e = (tl.2, Node.symlink tl.1) := by
  unfold activationFs registerOps at he
  simp only [List.flatMap_append, List.mem_append] at he
  rcases he with h | ((((h | h) | h) | h) | h)
  · have hskel : ∀ e' ∈ skeletonFs, e'.2 = Node.dir := by decide
    rw [hskel e h] at hk
    cases hk
  · rcases List.mem_flatMap.mp h with ⟨op, hop, hee⟩
    simp only [List.mem_singleton] at hop
    subst hop
    rw [mem_prefixDirs_kind hee] at hk
    cases hk
  · rcases List.mem_flatMap.mp h with ⟨op, hop, hee⟩
    simp only [List.mem_cons, List.not_mem_nil, or_false] at hop
    rcases hop with rfl | rfl | rfl <;>
      (simp only [opEntries, prefixDirs, List.dropLast, List.length_nil,
        List.range_zero, List.map_nil, List.nil_append,
        List.mem_singleton] at hee; subst hee; cases hk)
  · rw [List.flatMap_assoc] at h
    obtain ⟨f, _, hef⟩ := List.mem_flatMap.mp h
    exact absurd hk (frameChunk_no_symlink hef t)
  · rcases List.mem_flatMap.mp h with ⟨op, hop, hee⟩
    simp only [List.mem_singleton] at hop
    subst hop
    rw [mem_prefixDirs_kind hee] at hk
    cases hk
  · rw [flatMap_opEntries_mapSymlink] at h
    obtain ⟨tl, htl, rfl⟩ := List.mem_map.mp h
    exact ⟨tl, htl, rfl⟩

/-! ### Teardown after a successful activation -/

theorem kindAt_dir_of_all_dir_ne_nil {fs : Fs} {q : List String}
    (h1 : ∀ k ∈ entriesAt fs q, k = Node.dir)
    (h2 : entriesAt fs q ≠ []) : kindAt fs q = some Node.dir := by
  rcases kindAt_all_dir h1 with hk | hk
  · exact absurd (List.getLast?_eq_none_iff.mp hk) h2
  · exact hk

theorem not_isUnder_two {a b : String} {x y : String} (rest : List String)
    (hne : x ≠ a ∨ y ≠ b) : ¬ isUnder [a, b] (x :: y :: rest) := by
  apply not_isUnder_of_take_ne
  intro c
  simp only [List.length_cons, List.length_nil, List.take_succ_cons,
    List.take_zero, List.cons.injEq, and_true] at c
  rcases hne with h | h
  · exact h c.1
  · exact h c.2

theorem teardown_after_activation (frames : List Frame)
    (rm : List String → Bool) (fuel : Nat) (fs0 : Fs)
    (hnodup : (frames.map Frame.name).Nodup)
    (hfmt : ∀ f ∈ frames, f.format ≠ "header" ∧ f.format ≠ "class")
    (hrm1 : rm ["streaming", "class"] = false)
    (hrm2 : rm ["streaming", "header"] = false)
    (hfuel : 6 ≤ fuel)
    (hrun : runOps (fun _ => false) 0 skeletonFs (registerOps frames) =
      .ok fs0) :
    ∃ fs5, remove_handler fs0 rm fuel = some fs5 ∧ symlinkFree fs5 ∧
      (remove_handler fs5 rm fuel).isSome := by
  have h0 : fs0 = activationFs frames := by
    have h := hrun.symm.trans (runOps_register frames hnodup hfmt)
    simpa using h
  subst h0
  -- call 1 : control/class
  have hb0 : ∀ e ∈ activationFs frames, e.1.length ≤ 5 :=
    activation_bound frames
  have hreal1 : isRealDir (activationFs frames) ["control", "class"]
      = true := by
    simp [isRealDir, kindAt, activation_cc]
  obtain ⟨fs1, hw1⟩ := Option.isSome_iff_exists.mp
    (walk_and_delete_isSome 5 fuel _ ["control", "class"] rm hreal1 hb0
      (by simp only [List.length_cons, List.length_nil]; omega))
  have hb1 : ∀ e ∈ fs1, e.1.length ≤ 5 :=
    bound_of_sublist (walk_and_delete_sublist fuel _ _ _ _ hw1) hb0
  have hsym_cc : ∀ X, X = "fs" ∨ X = "ss" →
      entriesAt fs1 ["control", "class", X, "h"] = [] := by
    intro X hX
    have h := walk_and_delete_remove_sym2 fuel hw1
      (d := X) (s := "h") (t := ["control", "header", "h"])
      (by
        show kindAt (activationFs frames) ["control", "class", X] =
          some Node.dir
        rw [kindAt, (activation_cclass_sub frames X hX).1]
        rfl)
      (by
        show kindAt (activationFs frames) ["control", "class", X, "h"] =
          some (Node.symlink ["control", "header", "h"])
        rw [kindAt, (activation_cclass_sub frames X hX).2]
        rfl)
      (by rw [activation_chh frames]; simp)
      (by decide)
    exact h
  -- call 2 : streaming/class
  have e1_sc : entriesAt fs1 ["streaming", "class"] = [Node.dir] := by
    rw [walk_and_delete_preserves fuel _ _ _ _ _ hw1 (by decide),
      activation_sc frames hfmt]
  have hreal2 : isRealDir fs1 ["streaming", "class"] = true := by
    simp [isRealDir, kindAt, e1_sc]
  obtain ⟨fs2, hw2⟩ := Option.isSome_iff_exists.mp
    (walk_and_delete_isSome 5 fuel _ ["streaming", "class"] rm hreal2 hb1
      (by simp only [List.length_cons, List.length_nil]; omega))
  have hb2 : ∀ e ∈ fs2, e.1.length ≤ 5 :=
    bound_of_sublist (walk_and_delete_sublist fuel _ _ _ _ hw2) hb1
  have e1_shh : entriesAt fs1 ["streaming", "header", "h"] = [Node.dir]
      := by
    rw [walk_and_delete_preserves fuel _ _ _ _ _ hw1 (by decide),
      activation_shh frames hfmt]
  have hsym_sc : ∀ X, X = "fs" ∨ X = "hs" ∨ X = "ss" →
      entriesAt fs2 ["streaming", "class", X, "h"] = [] := by
    intro X hX
    have h := walk_and_delete_remove_sym2 fuel hw2
      (d := X) (s := "h") (t := ["streaming", "header", "h"])
      (by
        show kindAt fs1 ["streaming", "class", X] = some Node.dir
        rw [kindAt,
          walk_and_delete_preserves fuel _ _ _ _ _ hw1
            (not_isUnder_two _ (Or.inl (by decide))),
          (activation_sclass_sub frames hfmt X hX).1]
        rfl)
      (by
        show kindAt fs1 ["streaming", "class", X, "h"] =
          some (Node.symlink ["streaming", "header", "h"])
        rw [kindAt,
          walk_and_delete_preserves fuel _ _ _ _ _ hw1
            (not_isUnder_two _ (Or.inl (by decide))),
          (activation_sclass_sub frames hfmt X hX).2]
        rfl)
      (by rw [e1_shh]; simp)
      (by decide)
    exact h
  -- call 3 : streaming/header
  have e2_sh : entriesAt fs2 ["streaming", "header"] = [Node.dir, Node.dir]
      := by
    rw [walk_and_delete_preserves fuel _ _ _ _ _ hw2 (by decide),
      walk_and_delete_preserves fuel _ _ _ _ _ hw1 (by decide),
      activation_sh frames hfmt]
  have hreal3 : isRealDir fs2 ["streaming", "header"] = true := by
    simp [isRealDir, kindAt, e2_sh]
  obtain ⟨fs3, hw3⟩ := Option.isSome_iff_exists.mp
    (walk_and_delete_isSome 5 fuel _ ["streaming", "header"] rm hreal3 hb2
      (by simp only [List.length_cons, List.length_nil]; omega))
  have hb3 : ∀ e ∈ fs3, e.1.length ≤ 5 :=
    bound_of_sublist (walk_and_delete_sublist fuel _ _ _ _ hw3) hb2
  have e2_shh : entriesAt fs2 ["streaming", "header", "h"] = [Node.dir]
      := by
    rw [walk_and_delete_preserves fuel _ _ _ _ _ hw2 (by decide), e1_shh]
  have hsym_fr : ∀ f ∈ frames,
      entriesAt fs3 ["streaming", "header", "h", f.name] = [] := by
    intro f hf
    have h := walk_and_delete_remove_sym2 fuel hw3
      (d := "h") (s := f.name) (t := f.dir)
      (by
        show kindAt fs2 ["streaming", "header", "h"] = some Node.dir
        rw [kindAt, e2_shh]
        rfl)
      (by
        show kindAt fs2 ["streaming", "header", "h", f.name] =
          some (Node.symlink f.dir)
        rw [kindAt,
          walk_and_delete_preserves fuel _ _ _ _ _ hw2
            (not_isUnder_two _ (Or.inr (by decide))),
          walk_and_delete_preserves fuel _ _ _ _ _ hw1
            (not_isUnder_two _ (Or.inl (by decide))),
          activation_framelink frames hf hnodup hfmt]
        rfl)
      (by
        rw [show f.dir = ["streaming", f.format, f.name] from rfl,
          walk_and_delete_preserves fuel _ _ _ _ _ hw2
            (not_isUnder_two [f.name] (Or.inr (hfmt f hf).2)),
          walk_and_delete_preserves fuel _ _ _ _ _ hw1
            (not_isUnder_two [f.name] (Or.inl (by decide)))]
        exact activation_framedir_ne frames hf)
      (not_isUnder_two [f.name] (Or.inr (hfmt f hf).1))
    exact h
  -- call 4 : streaming
  have e3_str : entriesAt fs3 ["streaming"] =
      entriesAt (activationFs frames) ["streaming"] := by
    rw [walk_and_delete_preserves fuel _ _ _ _ _ hw3
        (not_isUnder_of_length_le (by decide)),
      walk_and_delete_preserves fuel _ _ _ _ _ hw2
        (not_isUnder_of_length_le (by decide)),
      walk_and_delete_preserves fuel _ _ _ _ _ hw1
        (not_isUnder_of_length_le (by decide))]
  have hreal4 : isRealDir fs3 ["streaming"] = true := by
    rw [isRealDir, kindAt_dir_of_all_dir_ne_nil ?_ ?_]
    · rfl
    · rw [e3_str]
      exact activation_streaming_alldir frames
    · rw [e3_str]
      exact activation_streaming_ne frames
  obtain ⟨fs4, hw4⟩ := Option.isSome_iff_exists.mp
    (walk_and_delete_isSome 5 fuel _ ["streaming"] rm hreal4 hb3
      (by simp only [List.length_cons, List.length_nil]; omega))
  have hb4 : ∀ e ∈ fs4, e.1.length ≤ 5 :=
    bound_of_sublist (walk_and_delete_sublist fuel _ _ _ _ hw4) hb3
  -- call 5 : control/header
  have e4_ch : entriesAt fs4 ["control", "header"] = [Node.dir, Node.dir]
      := by
    rw [walk_and_delete_preserves fuel _ _ _ _ _ hw4 (by decide),
      walk_and_delete_preserves fuel _ _ _ _ _ hw3 (by decide),
      walk_and_delete_preserves fuel _ _ _ _ _ hw2 (by decide),
      walk_and_delete_preserves fuel _ _ _ _ _ hw1 (by decide),
      activation_ch frames]
  have hreal5 : isRealDir fs4 ["control", "header"] = true := by
    simp [isRealDir, kindAt, e4_ch]
  obtain ⟨fs5, hw5⟩ := Option.isSome_iff_exists.mp
    (walk_and_delete_isSome 5 fuel _ ["control", "header"] rm hreal5 hb4
      (by simp only [List.length_cons, List.length_nil]; omega))
  have hb5 : ∀ e ∈ fs5, e.1.length ≤ 5 :=
    bound_of_sublist (walk_and_delete_sublist fuel _ _ _ _ hw5) hb4
  have hrh : remove_handler (activationFs frames) rm fuel = some fs5 := by
    simp [remove_handler, hw1, hw2, hw3, hw4, hw5]
  have hsub51 : fs5.Sublist fs1 :=
    (((walk_and_delete_sublist fuel _ _ _ _ hw5).trans
      (walk_and_delete_sublist fuel _ _ _ _ hw4)).trans
      (walk_and_delete_sublist fuel _ _ _ _ hw3)).trans
      (walk_and_delete_sublist fuel _ _ _ _ hw2)
  have hsub52 : fs5.Sublist fs2 :=
    ((walk_and_delete_sublist fuel _ _ _ _ hw5).trans
      (walk_and_delete_sublist fuel _ _ _ _ hw4)).trans
      (walk_and_delete_sublist fuel _ _ _ _ hw3)
  have hsub53 : fs5.Sublist fs3 :=
    (walk_and_delete_sublist fuel _ _ _ _ hw5).trans
      (walk_and_delete_sublist fuel _ _ _ _ hw4)
  have hsub50 : fs5.Sublist (activationFs frames) :=
    hsub51.trans (walk_and_delete_sublist fuel _ _ _ _ hw1)
  refine ⟨fs5, hrh, ?_, ?_⟩
  · -- no symlink survives the teardown
    intro e he t hc
    obtain ⟨tl, htl, rfl⟩ :=
      activation_symlink_cases (hsub50.subset he) hc
    rcases pendingLink_path_cases htl with ⟨g, hg, rfl⟩ | hsl | hcl
    · have hmem := mem_entriesAt (hsub53.subset he)
      rw [show (frameLink g).2 = ["streaming", "header", "h", g.name]
        from rfl, hsym_fr g hg] at hmem
      simp at hmem
    · simp only [streamingClassLinks, List.mem_cons, List.not_mem_nil,
        or_false] at hsl
      rcases hsl with rfl | rfl | rfl <;>
        (have hmem := mem_entriesAt (hsub52.subset he);
         rw [hsym_sc _ (by simp)] at hmem;
         simp at hmem)
    · simp only [controlClassLinks, List.mem_cons, List.not_mem_nil,
        or_false] at hcl
      rcases hcl with rfl | rfl <;>
        (have hmem := mem_entriesAt (hsub51.subset he);
         rw [hsym_cc _ (by simp)] at hmem;
         simp at hmem)
  · -- a second teardown run succeeds
    have p5_cc : entriesAt fs5 ["control", "class"] = [Node.dir] := by
      rw [walk_and_delete_preserves fuel _ _ _ _ _ hw5 (by decide),
        walk_and_delete_preserves fuel _ _ _ _ _ hw4 (by decide),
        walk_and_delete_preserves fuel _ _ _ _ _ hw3 (by decide),
        walk_and_delete_preserves fuel _ _ _ _ _ hw2 (by decide),
        walk_and_delete_preserves fuel _ _ _ _ _ hw1 (by decide),
        activation_cc frames]
    obtain ⟨fs6, hw6⟩ := Option.isSome_iff_exists.mp
      (walk_and_delete_isSome 5 fuel _ ["control", "class"] rm
        (by simp [isRealDir, kindAt, p5_cc]) hb5
        (by simp only [List.length_cons, List.length_nil]; omega))
    have hb6 : ∀ e ∈ fs6, e.1.length ≤ 5 :=
      bound_of_sublist (walk_and_delete_sublist fuel _ _ _ _ hw6) hb5
    have e3_sc : entriesAt fs3 ["streaming", "class"] = [Node.dir] := by
      rw [walk_and_delete_preserves fuel _ _ _ _ _ hw3 (by decide),
        walk_and_delete_preserves fuel _ _ _ _ _ hw2 (by decide), e1_sc]
    have halldir_sc : ∀ k ∈ entriesAt fs3 ["streaming", "class"],
        k = Node.dir := by
      intro k hk
      rw [e3_sc] at hk
      simpa using hk
    have e4_sc : entriesAt fs4 ["streaming", "class"] = [Node.dir] := by
      rw [walk_and_delete_protect fuel _ _ _ _ _ hw4 halldir_sc hrm1,
        e3_sc]
    have p6_sc : entriesAt fs6 ["streaming", "class"] = [Node.dir] := by
      rw [walk_and_delete_preserves fuel _ _ _ _ _ hw6 (by decide),
        walk_and_delete_preserves fuel _ _ _ _ _ hw5 (by decide), e4_sc]
    obtain ⟨fs7, hw7⟩ := Option.isSome_iff_exists.mp
      (walk_and_delete_isSome 5 fuel _ ["streaming", "class"] rm
        (by simp [isRealDir, kindAt, p6_sc]) hb6
        (by simp only [List.length_cons, List.length_nil]; omega))
    have hb7 : ∀ e ∈ fs7, e.1.length ≤ 5 :=
      bound_of_sublist (walk_and_delete_sublist fuel _ _ _ _ hw7) hb6
    have e3_sh : entriesAt fs3 ["streaming", "header"] =
        [Node.dir, Node.dir] := by
      rw [walk_and_delete_preserves fuel _ _ _ _ _ hw3 (by decide), e2_sh]
    have halldir_sh : ∀ k ∈ entriesAt fs3 ["streaming", "header"],
        k = Node.dir := by
      intro k hk
      rw [e3_sh] at hk
      simpa using hk
    have e4_sh : entriesAt fs4 ["streaming", "header"] =
        [Node.dir, Node.dir] := by
      rw [walk_and_delete_protect fuel _ _ _ _ _ hw4 halldir_sh hrm2,
        e3_sh]
    have p7_sh : entriesAt fs7 ["streaming", "header"] =
        [Node.dir, Node.dir] := by
      rw [walk_and_delete_preserves fuel _ _ _ _ _ hw7 (by decide),
        walk_and_delete_preserves fuel _ _ _ _ _ hw6 (by decide),
        walk_and_delete_preserves fuel _ _ _ _ _ hw5 (by decide), e4_sh]
    obtain ⟨fs8, hw8⟩ := Option.isSome_iff_exists.mp
      (walk_and_delete_isSome 5 fuel _ ["streaming", "header"] rm
        (by simp [isRealDir, kindAt, p7_sh]) hb7
        (by simp only [List.length_cons, List.length_nil]; omega))
    have hb8 : ∀ e ∈ fs8, e.1.length ≤ 5 :=
      bound_of_sublist (walk_and_delete_sublist fuel _ _ _ _ hw8) hb7
    have p8_str : entriesAt fs8 ["streaming"] =
        entriesAt (activationFs frames) ["streaming"] := by
      rw [walk_and_delete_preserves fuel _ _ _ _ _ hw8 (by decide),
        walk_and_delete_preserves fuel _ _ _ _ _ hw7 (by decide),
        walk_and_delete_preserves fuel _ _ _ _ _ hw6 (by decide),
        walk_and_delete_preserves fuel _ _ _ _ _ hw5 (by decide),
        walk_and_delete_preserves fuel _ _ _ _ _ hw4 (by decide),
        e3_str]
    obtain ⟨fs9, hw9⟩ := Option.isSome_iff_exists.mp
      (walk_and_delete_isSome 5 fuel _ ["streaming"] rm
        (by
          rw [isRealDir, kindAt_dir_of_all_dir_ne_nil ?_ ?_]
          · rfl
          · rw [p8_str]
            exact activation_streaming_alldir frames
          · rw [p8_str]
            exact activation_streaming_ne frames) hb8
        (by simp only [List.length_cons, List.length_nil]; omega))
    have hb9 : ∀ e ∈ fs9, e.1.length ≤ 5 :=
      bound_of_sublist (walk_and_delete_sublist fuel _ _ _ _ hw9) hb8
    have p9_ch : entriesAt fs9 ["control", "header"] =
        [Node.dir, Node.dir] := by
      rw [walk_and_delete_preserves fuel _ _ _ _ _ hw9 (by decide),
        walk_and_delete_preserves fuel _ _ _ _ _ hw8 (by decide),
        walk_and_delete_preserves fuel _ _ _ _ _ hw7 (by decide),
        walk_and_delete_preserves fuel _ _ _ _ _ hw6 (by decide),
        walk_and_delete_preserves fuel _ _ _ _ _ hw5 (by decide), e4_ch]
    obtain ⟨fs10, hw10⟩ := Option.isSome_iff_exists.mp
      (walk_and_delete_isSome 5 fuel _ ["control", "header"] rm
        (by simp [isRealDir, kindAt, p9_ch]) hb9
        (by simp only [List.length_cons, List.length_nil]; omega))
    simp [remove_handler, hw6, hw7, hw8, hw9, hw10]

theorem filterMap_dwSel_frameOps (f : Frame) :
    (frameOps f).filterMap (fun op =>
      match op with
      | .write p c =>
          if p = f.path ++ ["dwMaxVideoFrameBufferSize"] then some c
          else none
      | _ => none) =
      [add_unix_line_ending (Nat.repr (mul32 (mul32 f.width f.height) 2))]
    := by
  have hne : ∀ a b : String, a ≠ b →
      (f.path ++ [a] : List String) ≠ f.path ++ [b] := by
    intro a b hab c
    exact hab (by simpa using List.append_cancel_left c)
  simp [frameOps, List.filterMap_cons, List.filterMap_nil]

theorem filterMap_dwSel_frameOps_other {f g : Frame}
    (hng : g.name ≠ f.name) :
    (frameOps g).filterMap (fun op =>
      match op with
      | .write p c =>
          if p = f.path ++ ["dwMaxVideoFrameBufferSize"] then some c
          else none
      | _ => none) = [] := by
  have hneq : ∀ a : String,
      (g.path ++ [a] : List String) ≠
        f.path ++ ["dwMaxVideoFrameBufferSize"] := by
    intro a c
    simp only [Frame.path, Frame.dir, List.cons_append, List.nil_append,
      List.cons.injEq] at c
    exact hng c.2.2.1
  simp only [frameOps, List.filterMap_cons, List.filterMap_nil]
  rw [if_neg (hneq _), if_neg (hneq _), if_neg (hneq _), if_neg (hneq _)]

theorem filterMap_dwSel_flatMap_none {frames : List Frame} {f : Frame}
    (h : ∀ g ∈ frames, g.name ≠ f.name) :
    (frames.flatMap frameOps).filterMap (fun op =>
      match op with
      | .write p c =>
          if p = f.path ++ ["dwMaxVideoFrameBufferSize"] then some c
          else none
      | _ => none) = [] := by
  induction frames with
  | nil => rfl
  | cons g gs ih =>
      rw [List.flatMap_cons, List.filterMap_append,
        @filterMap_dwSel_frameOps_other f g (h g (by simp)),
        ih (fun g' hg' => h g' (by simp [hg']))]
      rfl

theorem filterMap_dwSel_flatMap {frames : List Frame} {f : Frame}
    (hf : f ∈ frames) (hnodup : (frames.map Frame.name).Nodup) :
    (frames.flatMap frameOps).filterMap (fun op =>
      match op with
      | .write p c =>
          if p = f.path ++ ["dwMaxVideoFrameBufferSize"] then some c
          else none
      | _ => none) =
      [add_unix_line_ending (Nat.repr (mul32 (mul32 f.width f.height) 2))]
    := by
  induction frames with
  | nil => simp at hf
  | cons g gs ih =>
      simp only [List.map_cons, List.nodup_cons] at hnodup
      rw [List.flatMap_cons, List.filterMap_append]
      rcases List.mem_cons.mp hf with rfl | hf'
      · rw [filterMap_dwSel_frameOps,
          filterMap_dwSel_flatMap_none (fun g' hg' c =>
            hnodup.1 (c ▸ List.mem_map_of_mem Frame.name hg'))]
        rfl
      · rw [@filterMap_dwSel_frameOps_other f g (fun c =>
            hnodup.1 (c ▸ List.mem_map_of_mem Frame.name hf')),
          ih hf' hnodup.2]
        rfl

theorem filterMap_dwSel_mapSymlink (f : Frame)
    (l : List (List String × List String)) :
    (l.map fun tl => FsOp.symlink tl.1 tl.2).filterMap (fun op =>
      match op with
      | .write p c =>
          if p = f.path ++ ["dwMaxVideoFrameBufferSize"] then some c
          else none
      | _ => none) = [] := by
  induction l with
  | nil => rfl
  | cons tl l ih => simp [ih]

theorem dwMaxContent_eq {frames : List Frame} {f : Frame}
    (hf : f ∈ frames) (hnodup : (frames.map Frame.name).Nodup) :
    dwMaxContent frames f =
      some (add_unix_line_ending
        (Nat.repr (mul32 (mul32 f.width f.height) 2))) := by
  have hroot : ∀ s : String, ¬ ([s] : List String) =
      f.path ++ ["dwMaxVideoFrameBufferSize"] := by
    intro s c
    have := congrArg List.length c
    simp [Frame.path, Frame.dir] at this
  unfold dwMaxContent registerOps
  rw [List.filterMap_append, List.filterMap_append,
    List.filterMap_append, List.filterMap_append]
  simp only [List.filterMap_cons, List.filterMap_nil]
  rw [if_neg (hroot _), if_neg (hroot _), if_neg (hroot _),
    filterMap_dwSel_flatMap hf hnodup, filterMap_dwSel_mapSymlink]
  rfl

/-! ## The claims -/

/-- C1: the spec requires `Uvc::get_v4l_device` to return the path
`/dev/<name>` derived from the first `video*` entry of the bound gadget's
`video4linux` sysfs directory; the code computes and prints the candidate
sysfs path and then returns `Ok(())`, never producing the `/dev` path.  On
a fully bound gadget (a `gadget.0` instance whose `video4linux` directory
holds `video2`), the code returns `Ok ()` while the resolver protocol of
the spec would return `["dev", "video2"]`: the implemented function
diverges from the specified one on every bound gadget. -/
theorem uvc_c1 :
    Uvc.get_v4l_device
        ["sys", "kernel", "config", "usb_gadget", "g1", "functions",
          "uvc.usb0"]
        (some ["gadget.0", "bind", "unbind"]) = .ok () ∧
      Uvc.get_v4l_device_spec
        ["sys", "kernel", "config", "usb_gadget", "g1", "functions",
          "uvc.usb0"]
        (fun p =>
          if p == libcompositeDriverPath "g1" then
            some [("gadget.0", true), ("bind", false), ("unbind", false)]
          else if p == libcompositeDriverPath "g1" ++
              ["gadget.0", "video4linux"] then
            some [("video2", true)]
          else none) = .ok ["dev", "video2"] :=
  ⟨rfl, rfl⟩

/-- C2: the spec requires a "not bound" failure when the libcomposite
driver directory holds no `gadget.*` entry; the code returns `Ok(())` on
such a listing (`bind`/`uevent`/`unbind` only), because the `gadget.*`
search result is only printed and never checked.  Only the case where the
driver directory itself is missing fails, and then with the raw
`fs::read_dir` io error, not a dedicated NotBound condition. -/
theorem uvc_c2 :
    Uvc.get_v4l_device
        ["sys", "kernel", "config", "usb_gadget", "g1", "functions",
          "uvc.usb0"]
        (some ["bind", "uevent", "unbind"]) = .ok () ∧
      Uvc.get_v4l_device_spec
        ["sys", "kernel", "config", "usb_gadget", "g1", "functions",
          "uvc.usb0"]
        (fun p =>
          if p == libcompositeDriverPath "g1" then
            some [("bind", false), ("uevent", false), ("unbind", false)]
          else none) = .error .notBound ∧
      Uvc.get_v4l_device
        ["sys", "kernel", "config", "usb_gadget", "g1", "functions",
          "uvc.usb0"] none = .error .ioError :=
  ⟨rfl, rfl, rfl⟩

/-- C3: during a register run no symlink is created before all directory
and file operations: the operation trace equals all its non-link
operations followed by all its link operations, and the link operations
are exactly the pending links in recorded order (one per frame in
addition order, then the streaming class links `fs`/`hs`/`ss`, then the
control class links `fs`/`ss`). -/
theorem uvc_c3 (frames : List Frame) :
    registerOps frames =
      (registerOps frames).filter (fun op => !op.isLink) ++
        (registerOps frames).filter FsOp.isLink ∧
      (registerOps frames).filter FsOp.isLink =
        (frames.map frameLink ++ streamingClassLinks ++
          controlClassLinks).map (fun tl => FsOp.symlink tl.1 tl.2) := by
  constructor
  · rw [filter_notLink_registerOps, filter_isLink_registerOps]
    simp [registerOps, pendingLinks]
  · rw [filter_isLink_registerOps]
    simp [pendingLinks]

/-- C4: a register run records exactly one symlink per frame descriptor —
link `streaming/header/h/<name>` targeting the format directory
`streaming/<format>/<name>` — plus the five fixed class links
`streaming/class/{fs,hs,ss}/h` and `control/class/{fs,ss}/h`, and no other
symlink appears anywhere in the trace. -/
theorem uvc_c4 (frames : List Frame) :
    (registerOps frames).filterMap FsOp.linkOf =
      frames.map (fun f =>
        (["streaming", f.format, f.name],
          ["streaming", "header", "h", f.name])) ++
      [ (["streaming", "header", "h"], ["streaming", "class", "fs", "h"]),
        (["streaming", "header", "h"], ["streaming", "class", "hs", "h"]),
        (["streaming", "header", "h"], ["streaming", "class", "ss", "h"]),
        (["control", "header", "h"], ["control", "class", "fs", "h"]),
        (["control", "header", "h"], ["control", "class", "ss", "h"]) ] := by
  rw [linkOf_registerOps]
  simp [pendingLinks, frameLink, Frame.dir, streamingClassLinks,
    controlClassLinks]

/-- C5 counterexample: the claim says `dwMaxVideoFrameBufferSize` holds
the decimal of `2 * width * height` even past the u32 range, but the Rust
expression `frame.width * frame.height * 2` is u32 arithmetic: at
width = height = 65536 the register run writes `"0\n"`, not
`"8589934592\n"`. -/
theorem uvc_c5_counterexample :
    dwMaxContent [⟨"mjpeg", "m", 65536, 65536, [333333]⟩]
        ⟨"mjpeg", "m", 65536, 65536, [333333]⟩ = some "0\n" ∧
      some "0\n" ≠ some (Nat.repr (2 * 65536 * 65536) ++ "\n") :=
  ⟨by decide, by decide⟩

/-- C5 (amended): for every frame of the builder (under distinct frame
names), the register run writes to
`streaming/<format>/<name>/<height>p/dwMaxVideoFrameBufferSize` exactly
the decimal string of `width * height * 2` reduced modulo `2 ^ 32`,
followed by a single newline. -/
theorem uvc_c5 (frames : List Frame) (f : Frame)
    (hf : f ∈ frames) (hnodup : (frames.map Frame.name).Nodup) :
    dwMaxContent frames f =
      some (Nat.repr (f.width * f.height * 2 % 4294967296) ++ "\n") := by
  rw [dwMaxContent_eq hf hnodup]
  have h : mul32 (mul32 f.width f.height) 2 =
      f.width * f.height * 2 % 4294967296 := by
    unfold mul32
    rw [Nat.mod_mul_mod]
  rw [h]
  rfl

theorem uvc_c5_witness :
    dwMaxContent [sampleFrame] sampleFrame =
      some (Nat.repr
        (sampleFrame.width * sampleFrame.height * 2 % 4294967296)
          ++ "\n") :=
  uvc_c5 [sampleFrame] sampleFrame (by simp) (by simp)

/-- C6: for every `fps ≥ 1` the result of `UvcBuilder::fps` is
`10000000 / fps` truncated toward zero, despite the route through an IEEE
double division and an `as u32` cast; in particular `fps 15 = 666666` and
`fps 30 = 333333`. -/
theorem uvc_c6 (f n : Nat) (hf : 1 ≤ f) (h : UvcBuilder.fps f n) :
    n = 10000000 / f ∧ (f = 15 → n = 666666) ∧ (f = 30 → n = 333333) := by
  have hv := fps_result_of_pos hf h
  refine ⟨hv, fun hq => ?_, fun hq => ?_⟩
  · subst hq; exact hv.trans (by decide)
  · subst hq; exact hv.trans (by decide)

theorem uvc_c6_witness :
    625000 = 10000000 / 16 ∧ (16 = 15 → 625000 = 666666) ∧
      (16 = 30 → 625000 = 333333) := by
  have hx : ((10000000 : ℚ) / ((16 : Nat) : ℚ)) = 625000 := by norm_num
  have hfps : UvcBuilder.fps 16 625000 := by
    refine ⟨.val 625000, ?_, ?_⟩
    · rw [f64DivTenMillion, if_neg (by decide)]
      refine ⟨625000, rfl, ?_, ?_⟩
      · rw [hx]
        simp
        positivity
      · intro m _
        rw [hx]
        simp
    · simp only [rustAsU32]
      rw [if_neg (by norm_num)]
      norm_num
      decide
  exact uvc_c6 16 625000 (by decide) hfps

/-- C7: from the state of a successful activation (frames with distinct
names, formats other than the reserved `header` and `class` group names),
the teardown walk succeeds, leaves no symlink anywhere under the function
directory, and a second teardown run immediately afterwards also returns
without error.  `rm` is the kernel's answer to `rmdir`: configfs refuses
removal only of the kernel-created group directories, so removal of
`streaming/class` and `streaming/header` fails there (`rm` must report
failure for them — the walk would otherwise delete `streaming/class`
during the `streaming` pass and the fourth `walk_and_delete` call of the
second run would error on the missing directory). -/
theorem uvc_c7 (frames : List Frame)
    (rm : List String → Bool) (fuel : Nat) (fs0 : Fs)
    (hnodup : (frames.map Frame.name).Nodup)
    (hfmt : ∀ f ∈ frames, f.format ≠ "header" ∧ f.format ≠ "class")
    (hrm1 : rm ["streaming", "class"] = false)
    (hrm2 : rm ["streaming", "header"] = false)
    (hfuel : 6 ≤ fuel)
    (hrun : runOps (fun _ => false) 0 skeletonFs (registerOps frames) =
      .ok fs0) :
    ∃ fs5, remove_handler fs0 rm fuel = some fs5 ∧ symlinkFree fs5 ∧
      (remove_handler fs5 rm fuel).isSome :=
  teardown_after_activation frames rm fuel fs0 hnodup hfmt hrm1 hrm2
    hfuel hrun

theorem uvc_c7_witness :
    ∃ fs5, remove_handler (activationFs [sampleFrame])
        (fun _ => false) 6 = some fs5 ∧ symlinkFree fs5 ∧
      (remove_handler fs5 (fun _ => false) 6).isSome :=
  uvc_c7 [sampleFrame] (fun _ => false) 6 (activationFs [sampleFrame])
    (by simp) (by decide) rfl rfl (by decide)
    (runOps_register [sampleFrame] (by simp) (by decide))

/-- C8: when the operation at index `k` of a register run fails, the run
stops with that error and the state it leaves behind is exactly the
skeleton state with the first `k` operations applied — every directory,
file and symlink created before the failure remains, and nothing else was
touched (no rollback). -/
theorem uvc_c8 (fail : Nat → Bool) (frames : List Frame) (k : Nat)
    (s : Fs)
    (h : runOps fail 0 skeletonFs (registerOps frames) = .error (k, s)) :
    k < (registerOps frames).length ∧
      s = applyPrefix skeletonFs ((registerOps frames).take k) := by
  obtain ⟨h1, h2, h3⟩ := runOps_error_state fail 0 skeletonFs _ h
  rw [Nat.sub_zero] at h2 h3
  exact ⟨h2, h3⟩

theorem uvc_c8_witness :
    3 < (registerOps []).length ∧
      applyPrefix skeletonFs ((registerOps []).take 3) =
        applyPrefix skeletonFs ((registerOps []).take 3) :=
  uvc_c8 (fun i => i == 3) [] 3
    (applyPrefix skeletonFs ((registerOps []).take 3)) (by decide)

/-- C9: `UvcBuilder::fps 0` does not fail: the IEEE double division
`10000000.0 / 0.0` yields `+∞` and the `as u32` cast saturates, so the
result is `4294967295` (`u32::MAX`). -/
theorem uvc_c9 (n : Nat) (h : UvcBuilder.fps 0 n) : n = 4294967295 := by
  obtain ⟨r, hdiv, hcast⟩ := h
  unfold f64DivTenMillion at hdiv
  rw [if_pos rfl] at hdiv
  subst hdiv
  exact hcast

theorem uvc_c9_witness :
    UvcBuilder.fps 0 4294967295 ∧ (4294967295 : Nat) = 4294967295 := by
  have hfps : UvcBuilder.fps 0 4294967295 :=
    ⟨F64.posInf, by simp [f64DivTenMillion], rfl⟩
  exact ⟨hfps, uvc_c9 4294967295 hfps⟩

/-- C10: a dangling symlink (every node recorded at its path is a symlink
whose target path has no entry) survives a successful teardown walk
unchanged: `path.exists()` follows the link and reports false, so the
entry matches neither the symlink branch nor the directory branch of
`walk_and_delete`. -/
theorem uvc_c10 (fuel : Nat) (fs : Fs) (dir : List String)
    (rm : List String → Bool) (fs' : Fs) (q t : List String)
    (h : walk_and_delete fuel fs dir rm = some fs')
    (hsym : ∀ k ∈ entriesAt fs q, k = Node.symlink t)
    (ht : entriesAt fs t = []) :
    entriesAt fs' q = entriesAt fs q :=
  walk_and_delete_dangling fuel fs dir rm fs' q t h hsym ht

theorem uvc_c10_witness :
    walk_and_delete 4
        [(["d"], Node.dir), (["d", "x"], Node.symlink ["gone"])]
        ["d"] (fun _ => false) =
      some [(["d"], Node.dir), (["d", "x"], Node.symlink ["gone"])] ∧
      entriesAt [(["d"], Node.dir), (["d", "x"], Node.symlink ["gone"])]
          ["d", "x"] =
        entriesAt [(["d"], Node.dir), (["d", "x"], Node.symlink ["gone"])]
          ["d", "x"] := by
  have hw : walk_and_delete 4
      [(["d"], Node.dir), (["d", "x"], Node.symlink ["gone"])]
      ["d"] (fun _ => false) =
      some [(["d"], Node.dir), (["d", "x"], Node.symlink ["gone"])] := by
    simp [walk_and_delete, walkEntries, childNames, isRealDir, existsAt,
      isSymlinkAt, isDirAt, kindAt, entriesAt, hasPath]
  refine ⟨hw, ?_⟩
  exact uvc_c10 4
    [(["d"], Node.dir), (["d", "x"], Node.symlink ["gone"])]
    ["d"] (fun _ => false)
    [(["d"], Node.dir), (["d", "x"], Node.symlink ["gone"])]
    ["d", "x"] ["gone"] hw (by decide) (by decide)
